import Mathlib

/-!
Shallow embedding of the voronoi-golang tessellation engine.

The source of truth is src/voronoi.go together with src/model.go.
Go machine integers never approach overflow for the quantities involved
(grid coordinates, squared distances), so they are modelled as Int and Nat.
Fallible operations (slice indexing that can go out of range in Go) are
modelled with Option: a none result corresponds to a Go runtime index
out of range failure.
-/

/-- Colors, from model.go: four byte channels, modelled as Nat values. -/
structure VColor where
  r : Nat
  g : Nat
  b : Nat
  a : Nat
deriving DecidableEq, Repr

/-- Points, from model.go: X, Y are Go ints; Distance and Color are
pointers, nil modelled as none. -/
structure VPoint where
  x : Int
  y : Int
  dist : Option Nat
  color : Option VColor
deriving DecidableEq, Repr

/-- The diagram field of the Voronoi struct: a width-by-height matrix of
nullable points.  It is modelled as a total function on coordinates; the
Go code only ever indexes it inside the canvas bounds (every access is
guarded), so the function representation is faithful. -/
def VGrid : Type := Int → Int → Option VPoint

/-- The Voronoi engine struct from voronoi.go. -/
structure Voronoi where
  width : Nat
  height : Nat
  numSeeds : Nat
  seeds : List VPoint
  activeSeeds : List VPoint
  diagram : VGrid
  radius : Nat
  distances : List (List Nat)

/-- Pointwise update of the diagram at one coordinate pair. -/
def updateGrid (d : VGrid) (x y : Int) (p : Option VPoint) : VGrid :=
  fun a b => if a = x ∧ b = y then p else d a b

/-- initDistances from voronoi.go: the precomputed distances matrix,
with rows 0..2*width and columns 0..2*height holding i*i + j*j. -/
def initDistancesL (w h : Nat) : List (List Nat) :=
  (List.range (2*w+1)).map fun i => (List.range (2*h+1)).map fun j => i*i + j*j

/-- Reading distances(i)(j): Go slice indexing, out of range is a runtime
failure, modelled as none. -/
def tableGet (t : List (List Nat)) (i j : Nat) : Option Nat :=
  (t[i]?).bind fun row => row[j]?

/-- initDiagram from voronoi.go: every cell nil. -/
def emptyDiagram : VGrid := fun _ _ => none

/-- One seed generated by initSeeds.  The source draws six values from the
global random source per seed (x, y and four color channels); the random
source is modelled as a stream g of naturals and rand.Intn n as a draw
reduced mod n, matching the Intn contract of returning a value in [0, n). -/
def mkSeed (g : Nat → Nat) (w h i : Nat) : VPoint :=
  { x := ((g (6*i) % w : Nat) : Int)
  , y := ((g (6*i+1) % h : Nat) : Int)
  , dist := some 0
  , color := some { r := g (6*i+2) % 256, g := g (6*i+3) % 256
                  , b := g (6*i+4) % 256, a := g (6*i+5) % 256 } }

/-- The seed list built by the initSeeds loop. -/
def initSeedsL (g : Nat → Nat) (w h n : Nat) : List VPoint :=
  (List.range n).map (mkSeed g w h)

/-- The diagram writes performed by the initSeeds loop: each seed is stored
at its own coordinates, later seeds overwriting earlier ones at equal
coordinates exactly as the Go loop does. -/
def placeSeeds (d : VGrid) (ss : List VPoint) : VGrid :=
  ss.foldl (fun d s => updateGrid d s.x s.y (some s)) d

/-- The struct literal returned by NewVoronoi on the success path. -/
def newVoronoiState (w h n : Nat) : Voronoi :=
  { width := w, height := h, numSeeds := n, seeds := [], activeSeeds := []
  , diagram := emptyDiagram, radius := 0, distances := [] }

/-- NewVoronoi from voronoi.go: rejects numSeeds > width*height. -/
def NewVoronoi (w h n : Nat) : Except String Voronoi :=
  if n > w * h then
    Except.error "Number of seeds cannot be more than the pixels in the canvas"
  else
    Except.ok (newVoronoiState w h n)

/-- Init from voronoi.go: initDistances, initDiagram, initSeeds,
initTessellation (radius 0, activeSeeds = seeds). -/
def Voronoi.Init (v : Voronoi) (g : Nat → Nat) : Voronoi :=
  let ss := initSeedsL g v.width v.height v.numSeeds
  { v with distances := initDistancesL v.width v.height
         , seeds := ss
         , diagram := placeSeeds emptyDiagram ss
         , radius := 0
         , activeSeeds := ss }

/-- The fully initialized engine for given dimensions, seed count and
random stream. -/
def vInit (w h n : Nat) (g : Nat → Nat) : Voronoi :=
  (newVoronoiState w h n).Init g

/-- pointFromDiagram from voronoi.go: returns the stored point, creating
a fresh colorless point at the coordinates when the cell is nil (the
fresh point is also stored, exactly as the source does). -/
def pointFromDiagram (d : VGrid) (x y : Int) : VPoint × VGrid :=
  match d x y with
  | none =>
      let p : VPoint := { x := x, y := y, dist := none, color := none }
      (p, updateGrid d x y (some p))
  | some p => (p, d)

/-- assignPointToSeed from voronoi.go.  Returns the claim result together
with the updated diagram. -/
def assignPointToSeed (w h : Nat) (d : VGrid) (seed : VPoint)
    (distance : Nat) (dx dy : Int) : Bool × VGrid :=
  if seed.x + dx < 0 ∨ seed.x + dx ≥ (w : Int) ∨
     seed.y + dy < 0 ∨ seed.y + dy ≥ (h : Int) then
    (false, d)
  else
    let pd := pointFromDiagram d (seed.x + dx) (seed.y + dy)
    let p := pd.1
    let d1 := pd.2
    match p.dist with
    | some pdist =>
        if pdist < distance then
          (false, d1)
        else
          (true, updateGrid d1 p.x p.y
            (some { p with color := seed.color, dist := some distance }))
    | none =>
        (true, updateGrid d1 p.x p.y
          (some { p with color := seed.color, dist := some distance }))

/-- assignPointsToSeed from voronoi.go: the eight sign and axis-swap
reflections of the octant offset, probed in source order, with the
success flags combined by Boolean or. -/
def assignPointsToSeed (w h : Nat) (d : VGrid) (seed : VPoint)
    (distance : Nat) (dx dy : Int) : Bool × VGrid :=
  let r1 := assignPointToSeed w h d seed distance dx dy
  let r2 := assignPointToSeed w h r1.2 seed distance dx (-dy)
  let r3 := assignPointToSeed w h r2.2 seed distance dy dx
  let r4 := assignPointToSeed w h r3.2 seed distance dy (-dx)
  let r5 := assignPointToSeed w h r4.2 seed distance (-dx) dy
  let r6 := assignPointToSeed w h r5.2 seed distance (-dx) (-dy)
  let r7 := assignPointToSeed w h r6.2 seed distance (-dy) dx
  let r8 := assignPointToSeed w h r7.2 seed distance (-dy) (-dx)
  (r1.1 || r2.1 || r3.1 || r4.1 || r5.1 || r6.1 || r7.1 || r8.1, r8.2)

/-- The while loop inside getProximityDistances: starting from dx, dy it
pushes (dx, dy) and moves to (dx+1, dy-1) while dy is at least dx.  The
loop runs at most dy+1 times, so a structural fuel argument of at least
dy+1 reproduces it exactly. -/
def octantWalk : Nat → Nat → Nat → List (Nat × Nat)
  | 0, _, _ => []
  | f+1, dx, dy => if dx ≤ dy then (dx, dy) :: octantWalk f (dx+1) (dy-1) else []

/-- getProximityDistances from voronoi.go for the incremented radius r:
the octant points (0, r), (1, r-1), ... while the second component is at
least the first. -/
def getRing (r : Nat) : List (Nat × Nat) :=
  octantWalk (r+1) 0 r

/-- The inner loop of Tessellate for one seed: probe every octant point of
the ring, looking the candidate distance up in the distances matrix (a
lookup out of range is a Go runtime failure, hence none). -/
def seedRing (w h : Nat) (t : List (List Nat)) (pts : List (Nat × Nat))
    (d : VGrid) (seed : VPoint) : Option (Bool × VGrid) :=
  match pts with
  | [] => some (false, d)
  | (a, b) :: rest =>
    match tableGet t a b with
    | none => none
    | some dist =>
      let r := assignPointsToSeed w h d seed dist (a : Int) (b : Int)
      (seedRing w h t rest r.2 seed).map fun br => (r.1 || br.1, br.2)

/-- The outer loop of Tessellate over the active seeds: threads the
diagram and collects, in order, the seeds that are still active. -/
def seedsPass (w h : Nat) (t : List (List Nat)) (pts : List (Nat × Nat))
    (d : VGrid) : List VPoint → Option (VGrid × List VPoint)
  | [] => some (d, [])
  | s :: rest =>
    (seedRing w h t pts d s).bind fun bg =>
    (seedsPass w h t pts bg.2 rest).map fun gl =>
    (gl.1, if bg.1 then s :: gl.2 else gl.2)

/-- One iteration of the Tessellate while loop: increment the radius,
compute the ring, process every active seed, replace the active set. -/
def tessellateStep (v : Voronoi) : Option Voronoi :=
  let r := v.radius + 1
  let pts := getRing r
  (seedsPass v.width v.height v.distances pts v.diagram v.activeSeeds).map
    fun gl => { v with radius := r, diagram := gl.1, activeSeeds := gl.2 }

/-- The Tessellate while loop with explicit fuel: it stops as soon as the
active seed set is empty, and otherwise performs one iteration per unit
of fuel. -/
def tessellateLoop : Nat → Voronoi → Option Voronoi
  | 0, v => some v
  | n+1, v =>
    if v.activeSeeds = [] then some v
    else (tessellateStep v).bind (tessellateLoop n)

/-- Tessellate from voronoi.go: with hideIterations the loop runs to
completion (any sufficiently large fuel); without it the body runs at
most once and then breaks. -/
def Voronoi.Tessellate (v : Voronoi) (hideIterations : Bool) (fuel : Nat) :
    Option Voronoi :=
  tessellateLoop (if hideIterations then fuel else 1) v

/-- The four byte writes for canvas cell (i, j) inside the first ToPixels
loop: the stored color when the cell is non-nil and has a color, four
zero bytes otherwise. -/
def writePixelAt (v : Voronoi) (px : List Nat) (i j : Nat) : List Nat :=
  let pos := (j * v.width + i) * 4
  match (v.diagram (i : Int) (j : Int)).bind (fun p => p.color) with
  | some c =>
      ((((px.set pos c.r).set (pos+1) c.g).set (pos+2) c.b).set (pos+3) c.a)
  | none =>
      ((((px.set pos 0).set (pos+1) 0).set (pos+2) 0).set (pos+3) 0)

/-- ToPixels from voronoi.go: a width*height*4 byte buffer written in
column-then-row order, followed by a pass blanking the seed positions.
The seed position arithmetic is Go int arithmetic; its value is
nonnegative for in-canvas seeds, hence the toNat. -/
def Voronoi.ToPixels (v : Voronoi) : List Nat :=
  let base := List.replicate (v.width * v.height * 4) 0
  let phase1 := (List.range v.width).foldl
    (fun px i => (List.range v.height).foldl
      (fun px j => writePixelAt v px i j) px) base
  v.seeds.foldl
    (fun px s =>
      let pos := ((s.y * (v.width : Int) + s.x) * 4).toNat
      (((px.set pos 0).set (pos+1) 0).set (pos+2) 0).set (pos+3) 0)
    phase1

/-! ## Basic facts about the embedding -/

/-- The target cell of a claim lies inside the canvas. -/
def inCanvas (w h : Nat) (x y : Int) : Prop :=
  0 ≤ x ∧ x < (w : Int) ∧ 0 ≤ y ∧ y < (h : Int)

instance (w h : Nat) (x y : Int) : Decidable (inCanvas w h x y) := by
  unfold inCanvas; infer_instance

/-- Every stored point records its own coordinates. -/
def WellPlaced (d : VGrid) : Prop :=
  ∀ x y p, d x y = some p → p.x = x ∧ p.y = y

theorem updateGrid_same (d : VGrid) (x y : Int) (p : Option VPoint) :
    updateGrid d x y p x y = p := by
  simp [updateGrid]

theorem updateGrid_ne (d : VGrid) (x y : Int) (p : Option VPoint)
    (a b : Int) (h : ¬(a = x ∧ b = y)) : updateGrid d x y p a b = d a b := by
  simp [updateGrid, h]

theorem updateGrid_updateGrid (d : VGrid) (x y : Int) (p q : Option VPoint) :
    updateGrid (updateGrid d x y p) x y q = updateGrid d x y q := by
  funext a b
  by_cases h : a = x ∧ b = y <;> simp [updateGrid, h]

theorem tableGet_initDistancesL (w h i j : Nat) :
    tableGet (initDistancesL w h) i j =
      if i ≤ 2*w ∧ j ≤ 2*h then some (i*i + j*j) else none := by
  unfold tableGet initDistancesL
  by_cases hi : i < 2*w+1
  · by_cases hj : j < 2*h+1
    · rw [List.getElem?_map, List.getElem?_range hi]
      simp only [Option.map_some', Option.some_bind, List.getElem?_map,
        List.getElem?_range hj]
      rw [if_pos (by omega)]
    · rw [List.getElem?_map, List.getElem?_range hi]
      simp only [Option.map_some', Option.some_bind, List.getElem?_map]
      rw [List.getElem?_eq_none (by simpa using Nat.le_of_not_lt hj)]
      simp only [Option.map_none']
      rw [if_neg (by omega)]
  · rw [List.getElem?_map, List.getElem?_eq_none (by simpa using Nat.le_of_not_lt hi)]
    rw [if_neg (by omega)]
    rfl

/-- The eight sign and axis-swap reflections of an offset, in the order in
which assignPointsToSeed probes them. -/
def reflList (dx dy : Int) : List (Int × Int) :=
  [(dx, dy), (dx, -dy), (dy, dx), (dy, -dx),
   (-dx, dy), (-dx, -dy), (-dy, dx), (-dy, -dx)]

/-- Sequential probing of a list of offsets, threading the diagram and
collecting the success flags by Boolean or. -/
def probeFold (w h : Nat) (s : VPoint) (dist : Nat) :
    List (Int × Int) → VGrid → Bool × VGrid
  | [], d => (false, d)
  | off :: rest, d =>
    let r := assignPointToSeed w h d s dist off.1 off.2
    let rr := probeFold w h s dist rest r.2
    (r.1 || rr.1, rr.2)

theorem assignPointsToSeed_eq_probeFold (w h : Nat) (d : VGrid) (s : VPoint)
    (dist : Nat) (dx dy : Int) :
    assignPointsToSeed w h d s dist dx dy =
      probeFold w h s dist (reflList dx dy) d := by
  simp only [assignPointsToSeed, probeFold, reflList, Bool.or_false, Bool.or_assoc]

theorem assignPointToSeed_out (w h : Nat) (d : VGrid) (s : VPoint)
    (dist : Nat) (dx dy : Int) (hout : ¬ inCanvas w h (s.x + dx) (s.y + dy)) :
    assignPointToSeed w h d s dist dx dy = (false, d) := by
  unfold inCanvas at hout
  unfold assignPointToSeed
  rw [if_pos (by omega)]

theorem assignPointToSeed_empty (w h : Nat) (d : VGrid) (s : VPoint)
    (dist : Nat) (dx dy : Int) (hin : inCanvas w h (s.x + dx) (s.y + dy))
    (hcell : d (s.x + dx) (s.y + dy) = none) :
    assignPointToSeed w h d s dist dx dy =
      (true, updateGrid d (s.x + dx) (s.y + dy)
        (some { x := s.x + dx, y := s.y + dy
              , dist := some dist, color := s.color })) := by
  unfold inCanvas at hin
  unfold assignPointToSeed
  rw [if_neg (by omega)]
  unfold pointFromDiagram
  rw [hcell]
  simp [updateGrid_updateGrid]

theorem assignPointToSeed_reject (w h : Nat) (d : VGrid) (s : VPoint)
    (dist : Nat) (dx dy : Int) (p : VPoint) (d0 : Nat)
    (hin : inCanvas w h (s.x + dx) (s.y + dy))
    (hcell : d (s.x + dx) (s.y + dy) = some p)
    (hd : p.dist = some d0) (hlt : d0 < dist) :
    assignPointToSeed w h d s dist dx dy = (false, d) := by
  unfold inCanvas at hin
  unfold assignPointToSeed
  rw [if_neg (by omega)]
  unfold pointFromDiagram
  rw [hcell]
  simp [hd, hlt]

theorem assignPointToSeed_over (w h : Nat) (d : VGrid) (s : VPoint)
    (dist : Nat) (dx dy : Int) (p : VPoint) (d0 : Nat)
    (hin : inCanvas w h (s.x + dx) (s.y + dy))
    (hcell : d (s.x + dx) (s.y + dy) = some p)
    (hd : p.dist = some d0) (hge : ¬ d0 < dist) :
    assignPointToSeed w h d s dist dx dy =
      (true, updateGrid d p.x p.y
        (some { p with color := s.color, dist := some dist })) := by
  unfold inCanvas at hin
  unfold assignPointToSeed
  rw [if_neg (by omega)]
  unfold pointFromDiagram
  rw [hcell]
  simp [hd, hge]

theorem assignPointToSeed_nodist (w h : Nat) (d : VGrid) (s : VPoint)
    (dist : Nat) (dx dy : Int) (p : VPoint)
    (hin : inCanvas w h (s.x + dx) (s.y + dy))
    (hcell : d (s.x + dx) (s.y + dy) = some p) (hd : p.dist = none) :
    assignPointToSeed w h d s dist dx dy =
      (true, updateGrid d p.x p.y
        (some { p with color := s.color, dist := some dist })) := by
  unfold inCanvas at hin
  unfold assignPointToSeed
  rw [if_neg (by omega)]
  unfold pointFromDiagram
  rw [hcell]
  simp [hd]

theorem octantWalk_nil (f dx dy : Nat) (h : dy < dx) :
    octantWalk f dx dy = [] := by
  cases f with
  | zero => rfl
  | succ n => unfold octantWalk; rw [if_neg (by omega)]

theorem octantWalk_sum (f : Nat) : ∀ dx dy, ∀ p ∈ octantWalk f dx dy,
    p.1 + p.2 = dx + dy ∧ dx ≤ p.1 ∧ p.1 ≤ p.2 := by
  induction f with
  | zero => intro dx dy p hp; simp [octantWalk] at hp
  | succ n ih =>
    intro dx dy p hp
    unfold octantWalk at hp
    by_cases hg : dx ≤ dy
    · rw [if_pos hg] at hp
      rcases List.mem_cons.mp hp with rfl | hp'
      · exact ⟨rfl, Nat.le_refl _, hg⟩
      · rcases Nat.eq_zero_or_pos dy with hz | hpos
        · subst hz
          have hdx : dx = 0 := Nat.le_zero.mp hg
          subst hdx
          rw [octantWalk_nil n 1 0 (by omega)] at hp'
          simp at hp'
        · have := ih (dx+1) (dy-1) p hp'
          omega
    · rw [if_neg hg] at hp
      simp at hp

theorem octantWalk_mem (f : Nat) : ∀ dx dy a b, dx + dy = a + b → dx ≤ a →
    a ≤ b → b ≤ dy → a + 1 ≤ f + dx → (a, b) ∈ octantWalk f dx dy := by
  induction f with
  | zero => intro dx dy a b hsum hdx hab hdy hf; omega
  | succ n ih =>
    intro dx dy a b hsum hdx hab hdy hf
    unfold octantWalk
    rw [if_pos (by omega)]
    by_cases he : dx = a
    · subst he
      have : dy = b := by omega
      subst this
      exact List.mem_cons_self _ _
    · refine List.mem_cons_of_mem _ (ih (dx+1) (dy-1) a b (by omega) (by omega)
        hab (by omega) (by omega))

theorem octantWalk_length (f : Nat) : ∀ dx dy, dy + 1 ≤ f + dx →
    (octantWalk f dx dy).length = (dy + 2 - dx) / 2 := by
  induction f with
  | zero =>
    intro dx dy hf
    simp [octantWalk]
    omega
  | succ n ih =>
    intro dx dy hf
    unfold octantWalk
    by_cases hg : dx ≤ dy
    · rw [if_pos hg]
      rcases Nat.eq_zero_or_pos dy with hz | hpos
      · subst hz
        have hdx : dx = 0 := Nat.le_zero.mp hg
        subst hdx
        rw [octantWalk_nil n 1 0 (by omega)]
        rfl
      · rw [List.length_cons, ih (dx+1) (dy-1) (by omega)]
        omega
    · rw [if_neg hg]
      simp
      omega

theorem getRing_sum (r : Nat) : ∀ p ∈ getRing r, p.1 + p.2 = r ∧ p.1 ≤ p.2 := by
  intro p hp
  have := octantWalk_sum (r+1) 0 r p hp
  omega

theorem getRing_mem (r a b : Nat) (hab : a ≤ b) (hsum : a + b = r) :
    (a, b) ∈ getRing r := by
  exact octantWalk_mem (r+1) 0 r a b (by omega) (by omega) hab (by omega) (by omega)

theorem getRing_length (r : Nat) : (getRing r).length = r / 2 + 1 := by
  rw [getRing, octantWalk_length (r+1) 0 r (by omega)]
  omega

theorem bind_reflList_length (l : List (Nat × Nat)) :
    (l.flatMap fun p => reflList (p.1 : Int) (p.2 : Int)).length = 8 * l.length := by
  induction l with
  | nil => rfl
  | cons p rest ih =>
    rw [List.flatMap_cons, List.length_append, ih]
    simp [reflList]
    omega

/-- C5: for width > 0, height > 0, Initialize fails with the configuration
error exactly when seedCount > width*height, otherwise it succeeds and
every generated seed lies inside the canvas for every random stream. -/
theorem c5_new_voronoi (w h n : Nat) (hw : 0 < w) (hh : 0 < h) :
    (w * h < n → NewVoronoi w h n =
      Except.error "Number of seeds cannot be more than the pixels in the canvas")
    ∧ (n ≤ w * h →
        NewVoronoi w h n = Except.ok (newVoronoiState w h n) ∧
        ∀ g : Nat → Nat, ∀ s ∈ (vInit w h n g).seeds,
          0 ≤ s.x ∧ s.x < (w : Int) ∧ 0 ≤ s.y ∧ s.y < (h : Int)) := by
  constructor
  · intro hlt
    unfold NewVoronoi
    rw [if_pos (by omega)]
  · intro hle
    refine ⟨by unfold NewVoronoi; rw [if_neg (by omega)], ?_⟩
    intro g s hs
    simp only [vInit, Voronoi.Init, initSeedsL, newVoronoiState, List.mem_map,
      List.mem_range] at hs
    obtain ⟨i, hi, rfl⟩ := hs
    have hx := Nat.mod_lt (g (6*i)) hw
    have hy := Nat.mod_lt (g (6*i+1)) hh
    unfold mkSeed
    refine ⟨by positivity, ?_, by positivity, ?_⟩
    · show ((g (6*i) % w : Nat) : Int) < (w : Int)
      exact_mod_cast hx
    · show ((g (6*i+1) % h : Nat) : Int) < (h : Int)
      exact_mod_cast hy

/-- C5 witness: a failing and a succeeding concrete initialization. -/
theorem c5_new_voronoi_witness :
    NewVoronoi 2 2 5 =
      Except.error "Number of seeds cannot be more than the pixels in the canvas" ∧
    NewVoronoi 2 2 1 = Except.ok (newVoronoiState 2 2 1) :=
  ⟨(c5_new_voronoi 2 2 5 (by decide) (by decide)).1 (by decide),
   ((c5_new_voronoi 2 2 1 (by decide) (by decide)).2 (by decide)).1⟩

/-- C6: ring geometry.  The probes of assignPointsToSeed are exactly the
eight reflections of the octant offset, for every seed and diagram alike;
the ring for radius r has r / 2 + 1 octant points, hence 8 * (r / 2 + 1)
generated offset vectors; and every generated offset lies on the L1
diamond boundary of radius r. -/
theorem c6_ring_geometry (r : Nat) :
    (∀ (w h : Nat) (d : VGrid) (s : VPoint) (dist : Nat) (dx dy : Int),
       assignPointsToSeed w h d s dist dx dy =
         probeFold w h s dist (reflList dx dy) d)
    ∧ (getRing r).length = r / 2 + 1
    ∧ ((getRing r).flatMap fun p => reflList (p.1 : Int) (p.2 : Int)).length =
        8 * (getRing r).length
    ∧ (∀ q ∈ (getRing r).flatMap fun p => reflList (p.1 : Int) (p.2 : Int),
         q.1.natAbs + q.2.natAbs = r) := by
  refine ⟨assignPointsToSeed_eq_probeFold, getRing_length r,
    bind_reflList_length _, ?_⟩
  intro q hq
  rcases List.mem_flatMap.mp hq with ⟨p, hp, hq'⟩
  have hsum := (getRing_sum r p hp).1
  have h1 : ((p.1 : Int)).natAbs = p.1 := Int.natAbs_ofNat _
  have h2 : ((p.2 : Int)).natAbs = p.2 := Int.natAbs_ofNat _
  simp only [reflList, List.mem_cons, List.mem_singleton, List.not_mem_nil,
    or_false] at hq'
  rcases hq' with rfl | rfl | rfl | rfl | rfl | rfl | rfl | rfl <;>
    simp only [Int.natAbs_neg, h1, h2] <;> omega

/-- C6 witness: the geometry facts evaluated at radius 3. -/
theorem c6_ring_geometry_witness :
    (getRing 3).length = 3 / 2 + 1 ∧
    ((getRing 3).flatMap fun p => reflList (p.1 : Int) (p.2 : Int)).length =
      8 * (getRing 3).length :=
  ⟨(c6_ring_geometry 3).2.1, (c6_ring_geometry 3).2.2.1⟩

/-- C2: semantics of one claim attempt, for a ring offset (dx, dy) that is
a reflection of the octant point (a, b) and a candidate distance taken
from the distances matrix: the candidate equals dx*dx + dy*dy; an
out-of-canvas target is rejected with the diagram unchanged; an empty
target is assigned the seed color at the candidate distance and the claim
succeeds; a target with a strictly smaller stored distance is rejected
with the diagram unchanged; otherwise the target is overwritten with the
seed color and the candidate distance.  The diagram is assumed to store
points at their own coordinates, which every reachable diagram does. -/
theorem c2_claim_attempt (w h : Nat) (d : VGrid) (s : VPoint) (a b : Nat)
    (dist : Nat) (hwp : WellPlaced d)
    (hdist : tableGet (initDistancesL w h) a b = some dist)
    (dx dy : Int) (hrefl : (dx, dy) ∈ reflList (a : Int) (b : Int)) :
    ((dist : Int) = dx * dx + dy * dy)
    ∧ (¬ inCanvas w h (s.x + dx) (s.y + dy) →
        assignPointToSeed w h d s dist dx dy = (false, d))
    ∧ (inCanvas w h (s.x + dx) (s.y + dy) → d (s.x + dx) (s.y + dy) = none →
        assignPointToSeed w h d s dist dx dy =
          (true, updateGrid d (s.x + dx) (s.y + dy)
            (some { x := s.x + dx, y := s.y + dy
                  , dist := some dist, color := s.color })))
    ∧ (∀ p d0, inCanvas w h (s.x + dx) (s.y + dy) →
        d (s.x + dx) (s.y + dy) = some p → p.dist = some d0 → d0 < dist →
        assignPointToSeed w h d s dist dx dy = (false, d))
    ∧ (∀ p d0, inCanvas w h (s.x + dx) (s.y + dy) →
        d (s.x + dx) (s.y + dy) = some p → p.dist = some d0 → ¬ d0 < dist →
        assignPointToSeed w h d s dist dx dy =
          (true, updateGrid d (s.x + dx) (s.y + dy)
            (some { x := s.x + dx, y := s.y + dy
                  , dist := some dist, color := s.color }))) := by
  rw [tableGet_initDistancesL] at hdist
  by_cases hrange : a ≤ 2*w ∧ b ≤ 2*h
  case neg => rw [if_neg hrange] at hdist; exact absurd hdist (by simp)
  rw [if_pos hrange] at hdist
  obtain rfl := Option.some.inj hdist
  refine ⟨?_, ?_, ?_, ?_, ?_⟩
  · simp only [reflList, List.mem_cons, List.mem_singleton, List.not_mem_nil,
      or_false, Prod.mk.injEq] at hrefl
    rcases hrefl with he | he | he | he | he | he | he | he <;>
      obtain ⟨rfl, rfl⟩ := he <;> (push_cast; ring)
  · exact assignPointToSeed_out w h d s _ dx dy
  · exact assignPointToSeed_empty w h d s _ dx dy
  · intro p d0 hin hcell hd hlt
    exact assignPointToSeed_reject w h d s _ dx dy p d0 hin hcell hd hlt
  · intro p d0 hin hcell hd hge
    have hxy := hwp _ _ _ hcell
    have := assignPointToSeed_over w h d s (a*a+b*b) dx dy p d0 hin hcell hd hge
    rw [this]
    cases p
    simp only [VPoint.mk.injEq] at hxy ⊢
    rw [hxy.1, hxy.2]

/-- C2 witness: a concrete successful claim of an empty cell. -/
theorem c2_claim_attempt_witness :
    assignPointToSeed 2 2 emptyDiagram
        { x := 0, y := 0, dist := some 0, color := some ⟨1, 2, 3, 4⟩ } 1 0 1 =
      (true, updateGrid emptyDiagram 0 1
        (some { x := 0, y := 0 + 1, dist := some 1
              , color := some ⟨1, 2, 3, 4⟩ })) := by
  have h := (c2_claim_attempt 2 2 emptyDiagram
    { x := 0, y := 0, dist := some 0, color := some ⟨1, 2, 3, 4⟩ } 0 1 1
    (fun x y p hc => by simp [emptyDiagram] at hc) (by decide) 0 1
    (by simp [reflList])).2.2.1 (by decide) rfl
  simpa using h

/-! ## Effect lemmas for a single claim attempt -/

/-- Diagram evolution: no assigned cell is ever cleared, and a stored
distance never increases. -/
def DistMono (d d' : VGrid) : Prop :=
  ∀ x y p, d x y = some p → ∃ p', d' x y = some p' ∧
    ∀ n, p.dist = some n → ∃ n', p'.dist = some n' ∧ n' ≤ n

theorem DistMono.rfl (d : VGrid) : DistMono d d :=
  fun _ _ p hp => ⟨p, hp, fun n hn => ⟨n, hn, Nat.le_refl n⟩⟩

theorem DistMono.comp {d1 d2 d3 : VGrid} (h12 : DistMono d1 d2)
    (h23 : DistMono d2 d3) : DistMono d1 d3 := by
  intro x y p hp
  obtain ⟨q, hq, hqd⟩ := h12 x y p hp
  obtain ⟨q', hq', hqd'⟩ := h23 x y q hq
  refine ⟨q', hq', fun n hn => ?_⟩
  obtain ⟨m, hm, hmn⟩ := hqd n hn
  obtain ⟨m', hm', hmn'⟩ := hqd' m hm
  exact ⟨m', hm', Nat.le_trans hmn' hmn⟩

theorem DistMono.isSome {d d' : VGrid} (h : DistMono d d') (x y : Int)
    (hs : (d x y).isSome) : (d' x y).isSome := by
  obtain ⟨p, hp⟩ := Option.isSome_iff_exists.mp hs
  obtain ⟨p', hp', -⟩ := h x y p hp
  exact Option.isSome_iff_exists.mpr ⟨p', hp'⟩

theorem aps_distMono (w h : Nat) (d : VGrid) (s : VPoint) (dist : Nat)
    (dx dy : Int) (hwp : WellPlaced d) :
    DistMono d (assignPointToSeed w h d s dist dx dy).2 := by
  by_cases hin : inCanvas w h (s.x + dx) (s.y + dy)
  · cases hcell : d (s.x + dx) (s.y + dy) with
    | none =>
      rw [assignPointToSeed_empty w h d s dist dx dy hin hcell]
      dsimp only
      intro x y p hp
      by_cases hxy : x = s.x + dx ∧ y = s.y + dy
      · rw [hxy.1, hxy.2, hcell] at hp; cases hp
      · rw [updateGrid_ne _ _ _ _ _ _ hxy]
        exact ⟨p, hp, fun n hn => ⟨n, hn, Nat.le_refl n⟩⟩
    | some p0 =>
      have hp0 := hwp _ _ _ hcell
      cases hd0 : p0.dist with
      | none =>
        rw [assignPointToSeed_nodist w h d s dist dx dy p0 hin hcell hd0]
        dsimp only
        intro x y p hp
        by_cases hxy : x = p0.x ∧ y = p0.y
        · rw [hxy.1, hxy.2, hp0.1, hp0.2, hcell] at hp
          obtain rfl := Option.some.inj hp
          refine ⟨_, by rw [hxy.1, hxy.2, updateGrid_same], fun n hn => ?_⟩
          rw [hd0] at hn; cases hn
        · rw [updateGrid_ne _ _ _ _ _ _ hxy]
          exact ⟨p, hp, fun n hn => ⟨n, hn, Nat.le_refl n⟩⟩
      | some n0 =>
        by_cases hlt : n0 < dist
        · rw [assignPointToSeed_reject w h d s dist dx dy p0 n0 hin hcell hd0 hlt]
          dsimp only
          exact DistMono.rfl d
        · rw [assignPointToSeed_over w h d s dist dx dy p0 n0 hin hcell hd0 hlt]
          dsimp only
          intro x y p hp
          by_cases hxy : x = p0.x ∧ y = p0.y
          · rw [hxy.1, hxy.2, hp0.1, hp0.2, hcell] at hp
            obtain rfl := Option.some.inj hp
            refine ⟨_, by rw [hxy.1, hxy.2, updateGrid_same], fun n hn => ?_⟩
            rw [hd0] at hn
            obtain rfl := Option.some.inj hn
            exact ⟨dist, rfl, by omega⟩
          · rw [updateGrid_ne _ _ _ _ _ _ hxy]
            exact ⟨p, hp, fun n hn => ⟨n, hn, Nat.le_refl n⟩⟩
  · rw [assignPointToSeed_out w h d s dist dx dy hin]
    dsimp only
    exact DistMono.rfl d

theorem aps_wellPlaced (w h : Nat) (d : VGrid) (s : VPoint) (dist : Nat)
    (dx dy : Int) (hwp : WellPlaced d) :
    WellPlaced (assignPointToSeed w h d s dist dx dy).2 := by
  by_cases hin : inCanvas w h (s.x + dx) (s.y + dy)
  · cases hcell : d (s.x + dx) (s.y + dy) with
    | none =>
      rw [assignPointToSeed_empty w h d s dist dx dy hin hcell]
      dsimp only
      intro x y p hp
      by_cases hxy : x = s.x + dx ∧ y = s.y + dy
      · rw [hxy.1, hxy.2, updateGrid_same] at hp
        obtain rfl := Option.some.inj hp
        exact ⟨hxy.1.symm, hxy.2.symm⟩
      · rw [updateGrid_ne _ _ _ _ _ _ hxy] at hp
        exact hwp _ _ _ hp
    | some p0 =>
      have hp0 := hwp _ _ _ hcell
      cases hd0 : p0.dist with
      | none =>
        rw [assignPointToSeed_nodist w h d s dist dx dy p0 hin hcell hd0]
        dsimp only
        intro x y p hp
        by_cases hxy : x = p0.x ∧ y = p0.y
        · rw [hxy.1, hxy.2, updateGrid_same] at hp
          obtain rfl := Option.some.inj hp
          exact ⟨hxy.1.symm, hxy.2.symm⟩
        · rw [updateGrid_ne _ _ _ _ _ _ hxy] at hp
          exact hwp _ _ _ hp
      | some n0 =>
        by_cases hlt : n0 < dist
        · rw [assignPointToSeed_reject w h d s dist dx dy p0 n0 hin hcell hd0 hlt]
          dsimp only
          exact hwp
        · rw [assignPointToSeed_over w h d s dist dx dy p0 n0 hin hcell hd0 hlt]
          dsimp only
          intro x y p hp
          by_cases hxy : x = p0.x ∧ y = p0.y
          · rw [hxy.1, hxy.2, updateGrid_same] at hp
            obtain rfl := Option.some.inj hp
            exact ⟨hxy.1.symm, hxy.2.symm⟩
          · rw [updateGrid_ne _ _ _ _ _ _ hxy] at hp
            exact hwp _ _ _ hp
  · rw [assignPointToSeed_out w h d s dist dx dy hin]
    dsimp only
    exact hwp

theorem aps_unchanged_or (w h : Nat) (d : VGrid) (s : VPoint) (dist : Nat)
    (dx dy : Int) (hwp : WellPlaced d) (x y : Int) :
    (assignPointToSeed w h d s dist dx dy).2 x y = d x y ∨
      ((assignPointToSeed w h d s dist dx dy).1 = true ∧
        x = s.x + dx ∧ y = s.y + dy) := by
  by_cases hin : inCanvas w h (s.x + dx) (s.y + dy)
  · cases hcell : d (s.x + dx) (s.y + dy) with
    | none =>
      rw [assignPointToSeed_empty w h d s dist dx dy hin hcell]
      dsimp only
      by_cases hxy : x = s.x + dx ∧ y = s.y + dy
      · exact Or.inr ⟨rfl, hxy⟩
      · exact Or.inl (updateGrid_ne _ _ _ _ _ _ hxy)
    | some p0 =>
      have hp0 := hwp _ _ _ hcell
      cases hd0 : p0.dist with
      | none =>
        rw [assignPointToSeed_nodist w h d s dist dx dy p0 hin hcell hd0]
        dsimp only
        by_cases hxy : x = p0.x ∧ y = p0.y
        · exact Or.inr ⟨rfl, by rw [hxy.1, hxy.2, hp0.1, hp0.2]; exact ⟨rfl, rfl⟩⟩
        · exact Or.inl (updateGrid_ne _ _ _ _ _ _ hxy)
      | some n0 =>
        by_cases hlt : n0 < dist
        · rw [assignPointToSeed_reject w h d s dist dx dy p0 n0 hin hcell hd0 hlt]
          exact Or.inl rfl
        · rw [assignPointToSeed_over w h d s dist dx dy p0 n0 hin hcell hd0 hlt]
          dsimp only
          by_cases hxy : x = p0.x ∧ y = p0.y
          · exact Or.inr ⟨rfl, by rw [hxy.1, hxy.2, hp0.1, hp0.2]; exact ⟨rfl, rfl⟩⟩
          · exact Or.inl (updateGrid_ne _ _ _ _ _ _ hxy)
  · rw [assignPointToSeed_out w h d s dist dx dy hin]
    exact Or.inl rfl

theorem aps_ensures (w h : Nat) (d : VGrid) (s : VPoint) (dist : Nat)
    (dx dy : Int) (hwp : WellPlaced d)
    (hin : inCanvas w h (s.x + dx) (s.y + dy)) :
    ((assignPointToSeed w h d s dist dx dy).2 (s.x + dx) (s.y + dy)).isSome := by
  cases hcell : d (s.x + dx) (s.y + dy) with
  | none =>
    rw [assignPointToSeed_empty w h d s dist dx dy hin hcell]
    dsimp only
    rw [updateGrid_same]
    rfl
  | some p0 =>
    have hp0 := hwp _ _ _ hcell
    cases hd0 : p0.dist with
    | none =>
      rw [assignPointToSeed_nodist w h d s dist dx dy p0 hin hcell hd0]
      dsimp only
      rw [← hp0.1, ← hp0.2, updateGrid_same]
      rfl
    | some n0 =>
      by_cases hlt : n0 < dist
      · rw [assignPointToSeed_reject w h d s dist dx dy p0 n0 hin hcell hd0 hlt]
        dsimp only
        rw [hcell]
        rfl
      · rw [assignPointToSeed_over w h d s dist dx dy p0 n0 hin hcell hd0 hlt]
        dsimp only
        rw [← hp0.1, ← hp0.2, updateGrid_same]
        rfl

theorem aps_true_in (w h : Nat) (d : VGrid) (s : VPoint) (dist : Nat)
    (dx dy : Int) (htrue : (assignPointToSeed w h d s dist dx dy).1 = true) :
    inCanvas w h (s.x + dx) (s.y + dy) := by
  by_contra hin
  rw [assignPointToSeed_out w h d s dist dx dy hin] at htrue
  cases htrue

/-! ## Lifting the effect lemmas through probeFold -/

theorem pf_distMono (w h : Nat) (s : VPoint) (dist : Nat) :
    ∀ (offs : List (Int × Int)) (d : VGrid), WellPlaced d →
      DistMono d (probeFold w h s dist offs d).2 := by
  intro offs
  induction offs with
  | nil => intro d _; exact DistMono.rfl d
  | cons off rest ih =>
    intro d hwp
    exact DistMono.comp (aps_distMono w h d s dist off.1 off.2 hwp)
      (ih _ (aps_wellPlaced w h d s dist off.1 off.2 hwp))

theorem pf_wellPlaced (w h : Nat) (s : VPoint) (dist : Nat) :
    ∀ (offs : List (Int × Int)) (d : VGrid), WellPlaced d →
      WellPlaced (probeFold w h s dist offs d).2 := by
  intro offs
  induction offs with
  | nil => intro d hwp; exact hwp
  | cons off rest ih =>
    intro d hwp
    exact ih _ (aps_wellPlaced w h d s dist off.1 off.2 hwp)

theorem pf_unchanged_or (w h : Nat) (s : VPoint) (dist : Nat) :
    ∀ (offs : List (Int × Int)) (d : VGrid), WellPlaced d → ∀ x y,
      (probeFold w h s dist offs d).2 x y = d x y ∨
        ((probeFold w h s dist offs d).1 = true ∧
          ∃ off ∈ offs, x = s.x + off.1 ∧ y = s.y + off.2) := by
  intro offs
  induction offs with
  | nil => intro d _ x y; exact Or.inl rfl
  | cons off rest ih =>
    intro d hwp x y
    have hwp1 := aps_wellPlaced w h d s dist off.1 off.2 hwp
    rcases ih (assignPointToSeed w h d s dist off.1 off.2).2 hwp1 x y with
      hsame | ⟨hflag, off', hoff', hx, hy⟩
    · rcases aps_unchanged_or w h d s dist off.1 off.2 hwp x y with
        hsame0 | ⟨hflag0, hx, hy⟩
      · left
        show (probeFold w h s dist rest _).2 x y = d x y
        rw [hsame, hsame0]
      · right
        refine ⟨by simp [probeFold, hflag0], off, List.mem_cons_self _ _, hx, hy⟩
    · right
      refine ⟨by simp [probeFold, hflag], off', List.mem_cons_of_mem _ hoff', hx, hy⟩

theorem pf_ensures (w h : Nat) (s : VPoint) (dist : Nat) :
    ∀ (offs : List (Int × Int)) (d : VGrid), WellPlaced d →
      ∀ off ∈ offs, inCanvas w h (s.x + off.1) (s.y + off.2) →
        ((probeFold w h s dist offs d).2 (s.x + off.1) (s.y + off.2)).isSome := by
  intro offs
  induction offs with
  | nil => intro d _ off hoff; simp at hoff
  | cons o rest ih =>
    intro d hwp off hoff hin
    have hwp1 := aps_wellPlaced w h d s dist o.1 o.2 hwp
    rcases List.mem_cons.mp hoff with rfl | hoff'
    · exact DistMono.isSome (pf_distMono w h s dist rest _ hwp1) _ _
        (aps_ensures w h d s dist off.1 off.2 hwp hin)
    · exact ih _ hwp1 off hoff' hin

theorem pf_true_in (w h : Nat) (s : VPoint) (dist : Nat) :
    ∀ (offs : List (Int × Int)) (d : VGrid),
      (probeFold w h s dist offs d).1 = true →
      ∃ off ∈ offs, inCanvas w h (s.x + off.1) (s.y + off.2) := by
  intro offs
  induction offs with
  | nil => intro d htrue; cases htrue
  | cons o rest ih =>
    intro d htrue
    simp only [probeFold, Bool.or_eq_true] at htrue
    rcases htrue with h1 | h2
    · exact ⟨o, List.mem_cons_self _ _, aps_true_in w h d s dist o.1 o.2 h1⟩
    · obtain ⟨off, hoff, hin⟩ := ih _ h2
      exact ⟨off, List.mem_cons_of_mem _ hoff, hin⟩

/-! ## Lifting through seedRing (one seed, one ring) -/

theorem seedRing_cons (w h : Nat) (t : List (List Nat)) (a b : Nat)
    (rest : List (Nat × Nat)) (d : VGrid) (s : VPoint) (flag : Bool)
    (d' : VGrid) (hsr : seedRing w h t ((a, b) :: rest) d s = some (flag, d')) :
    ∃ dist f2 d2, tableGet t a b = some dist ∧
      seedRing w h t rest (assignPointsToSeed w h d s dist (a : Int) (b : Int)).2 s =
        some (f2, d2) ∧
      flag = ((assignPointsToSeed w h d s dist (a : Int) (b : Int)).1 || f2) ∧
      d' = d2 := by
  unfold seedRing at hsr
  cases htbl : tableGet t a b with
  | none => rw [htbl] at hsr; cases hsr
  | some dist =>
    rw [htbl] at hsr
    dsimp only at hsr
    cases hrest : seedRing w h t rest
        (assignPointsToSeed w h d s dist (a : Int) (b : Int)).2 s with
    | none => rw [hrest] at hsr; cases hsr
    | some fg =>
      rw [hrest] at hsr
      obtain ⟨f2, d2⟩ := fg
      simp only [Option.map_some', Option.some.injEq, Prod.mk.injEq] at hsr
      exact ⟨dist, f2, d2, rfl, hrest, hsr.1.symm, hsr.2.symm⟩

theorem sr_distMono (w h : Nat) (t : List (List Nat)) :
    ∀ (pts : List (Nat × Nat)) (d : VGrid) (s : VPoint) (flag : Bool)
      (d' : VGrid), WellPlaced d →
      seedRing w h t pts d s = some (flag, d') → DistMono d d' := by
  intro pts
  induction pts with
  | nil =>
    intro d s flag d' _ hsr
    obtain ⟨rfl, rfl⟩ : false = flag ∧ d = d' := by
      simpa [seedRing, Prod.ext_iff] using hsr
    exact DistMono.rfl d
  | cons ab rest ih =>
    intro d s flag d' hwp hsr
    obtain ⟨a, b⟩ := ab
    obtain ⟨dist, f2, d2, htbl, hrest, hflag, rfl⟩ :=
      seedRing_cons w h t a b rest d s flag d' hsr
    rw [assignPointsToSeed_eq_probeFold] at hrest
    have hwp1 := pf_wellPlaced w h s dist (reflList (a : Int) (b : Int)) d hwp
    have h1 := pf_distMono w h s dist (reflList (a : Int) (b : Int)) d hwp
    exact DistMono.comp h1 (ih _ s f2 _ hwp1 hrest)

theorem sr_wellPlaced (w h : Nat) (t : List (List Nat)) :
    ∀ (pts : List (Nat × Nat)) (d : VGrid) (s : VPoint) (flag : Bool)
      (d' : VGrid), WellPlaced d →
      seedRing w h t pts d s = some (flag, d') → WellPlaced d' := by
  intro pts
  induction pts with
  | nil =>
    intro d s flag d' hwp hsr
    obtain ⟨rfl, rfl⟩ : false = flag ∧ d = d' := by
      simpa [seedRing, Prod.ext_iff] using hsr
    exact hwp
  | cons ab rest ih =>
    intro d s flag d' hwp hsr
    obtain ⟨a, b⟩ := ab
    obtain ⟨dist, f2, d2, htbl, hrest, hflag, rfl⟩ :=
      seedRing_cons w h t a b rest d s flag d' hsr
    rw [assignPointsToSeed_eq_probeFold] at hrest
    have hwp1 := pf_wellPlaced w h s dist (reflList (a : Int) (b : Int)) d hwp
    exact ih _ s f2 _ hwp1 hrest

theorem sr_unchanged_or (w h : Nat) (t : List (List Nat)) :
    ∀ (pts : List (Nat × Nat)) (d : VGrid) (s : VPoint) (flag : Bool)
      (d' : VGrid), WellPlaced d →
      seedRing w h t pts d s = some (flag, d') → ∀ x y,
      d' x y = d x y ∨
        (flag = true ∧ ∃ pt ∈ pts,
          ∃ off ∈ reflList ((pt.1 : Nat) : Int) ((pt.2 : Nat) : Int),
            x = s.x + off.1 ∧ y = s.y + off.2) := by
  intro pts
  induction pts with
  | nil =>
    intro d s flag d' _ hsr x y
    obtain ⟨rfl, rfl⟩ : false = flag ∧ d = d' := by
      simpa [seedRing, Prod.ext_iff] using hsr
    exact Or.inl rfl
  | cons ab rest ih =>
    intro d s flag d' hwp hsr x y
    obtain ⟨a, b⟩ := ab
    obtain ⟨dist, f2, d2, htbl, hrest, hflag, rfl⟩ :=
      seedRing_cons w h t a b rest d s flag d' hsr
    rw [assignPointsToSeed_eq_probeFold] at hrest
    have hwp1 := pf_wellPlaced w h s dist (reflList (a : Int) (b : Int)) d hwp
    rcases ih _ s f2 _ hwp1 hrest x y with hsame | ⟨hf2, pt, hpt, off, hoff, hx, hy⟩
    · rw [hsame]
      rcases pf_unchanged_or w h s dist (reflList (a : Int) (b : Int)) d hwp x y with
        hsame0 | ⟨hflag0, off, hoff, hx, hy⟩
      · left
        rw [← assignPointsToSeed_eq_probeFold] at hsame0
        exact hsame0
      · refine Or.inr ⟨?_, (a, b), List.mem_cons_self _ _, off, hoff, hx, hy⟩
        rw [hflag, assignPointsToSeed_eq_probeFold, hflag0]
        rfl
    · exact Or.inr ⟨by rw [hflag, hf2, Bool.or_true],
        pt, List.mem_cons_of_mem _ hpt, off, hoff, hx, hy⟩

theorem sr_ensures (w h : Nat) (t : List (List Nat)) :
    ∀ (pts : List (Nat × Nat)) (d : VGrid) (s : VPoint) (flag : Bool)
      (d' : VGrid), WellPlaced d →
      seedRing w h t pts d s = some (flag, d') →
      ∀ pt ∈ pts, ∀ off ∈ reflList ((pt.1 : Nat) : Int) ((pt.2 : Nat) : Int),
        inCanvas w h (s.x + off.1) (s.y + off.2) →
        (d' (s.x + off.1) (s.y + off.2)).isSome := by
  intro pts
  induction pts with
  | nil => intro d s flag d' _ _ pt hpt; simp at hpt
  | cons ab rest ih =>
    intro d s flag d' hwp hsr pt hpt off hoff hin
    obtain ⟨a, b⟩ := ab
    obtain ⟨dist, f2, d2, htbl, hrest, hflag, rfl⟩ :=
      seedRing_cons w h t a b rest d s flag d' hsr
    have hwp1 : WellPlaced (assignPointsToSeed w h d s dist (a : Int) (b : Int)).2 := by
      rw [assignPointsToSeed_eq_probeFold]
      exact pf_wellPlaced w h s dist _ d hwp
    rcases List.mem_cons.mp hpt with rfl | hpt'
    · have hsome : ((assignPointsToSeed w h d s dist (a : Int) (b : Int)).2
          (s.x + off.1) (s.y + off.2)).isSome := by
        rw [assignPointsToSeed_eq_probeFold]
        exact pf_ensures w h s dist _ d hwp off hoff hin
      exact DistMono.isSome (sr_distMono w h t rest _ s f2 _ hwp1 hrest) _ _ hsome
    · exact ih _ s f2 _ hwp1 hrest pt hpt' off hoff hin

theorem sr_true_in (w h : Nat) (t : List (List Nat)) :
    ∀ (pts : List (Nat × Nat)) (d : VGrid) (s : VPoint) (flag : Bool)
      (d' : VGrid), seedRing w h t pts d s = some (flag, d') → flag = true →
      ∃ pt ∈ pts, ∃ off ∈ reflList ((pt.1 : Nat) : Int) ((pt.2 : Nat) : Int),
        inCanvas w h (s.x + off.1) (s.y + off.2) := by
  intro pts
  induction pts with
  | nil =>
    intro d s flag d' hsr htrue
    obtain ⟨rfl, rfl⟩ : false = flag ∧ d = d' := by
      simpa [seedRing, Prod.ext_iff] using hsr
    cases htrue
  | cons ab rest ih =>
    intro d s flag d' hsr htrue
    obtain ⟨a, b⟩ := ab
    obtain ⟨dist, f2, d2, htbl, hrest, hflag, rfl⟩ :=
      seedRing_cons w h t a b rest d s flag d' hsr
    rw [htrue] at hflag
    rcases (Bool.or_eq_true _ _).mp hflag.symm with h1 | h2
    · rw [assignPointsToSeed_eq_probeFold] at h1
      obtain ⟨off, hoff, hin⟩ := pf_true_in w h s dist _ d h1
      exact ⟨(a, b), List.mem_cons_self _ _, off, hoff, hin⟩
    · obtain ⟨pt, hpt, off, hoff, hin⟩ := ih _ s f2 _ hrest h2
      exact ⟨pt, List.mem_cons_of_mem _ hpt, off, hoff, hin⟩

/-! ## Lifting through seedsPass (all active seeds, one ring) -/

theorem seedsPass_cons (w h : Nat) (t : List (List Nat))
    (pts : List (Nat × Nat)) (d : VGrid) (s : VPoint) (rest : List VPoint)
    (d' : VGrid) (act : List VPoint)
    (hsp : seedsPass w h t pts d (s :: rest) = some (d', act)) :
    ∃ f1 d1 act2, seedRing w h t pts d s = some (f1, d1) ∧
      seedsPass w h t pts d1 rest = some (d', act2) ∧
      act = if f1 then s :: act2 else act2 := by
  unfold seedsPass at hsp
  cases hsr : seedRing w h t pts d s with
  | none => rw [hsr] at hsp; cases hsp
  | some bg =>
    rw [hsr] at hsp
    obtain ⟨f1, d1⟩ := bg
    rw [Option.some_bind] at hsp
    cases hrest : seedsPass w h t pts d1 rest with
    | none => rw [hrest] at hsp; cases hsp
    | some gl =>
      rw [hrest] at hsp
      obtain ⟨d2, act2⟩ := gl
      simp only [Option.map_some', Option.some.injEq, Prod.mk.injEq] at hsp
      exact ⟨f1, d1, act2, rfl, by rw [hrest, hsp.1], hsp.2.symm⟩

theorem sp_distMono (w h : Nat) (t : List (List Nat)) (pts : List (Nat × Nat)) :
    ∀ (seeds : List VPoint) (d : VGrid) (d' : VGrid) (act : List VPoint),
      WellPlaced d → seedsPass w h t pts d seeds = some (d', act) →
      DistMono d d' := by
  intro seeds
  induction seeds with
  | nil =>
    intro d d' act _ hsp
    obtain ⟨rfl, rfl⟩ : d = d' ∧ [] = act := by
      simpa [seedsPass, Prod.ext_iff] using hsp
    exact DistMono.rfl d
  | cons s rest ih =>
    intro d d' act hwp hsp
    obtain ⟨f1, d1, act2, hsr, hrest, hact⟩ :=
      seedsPass_cons w h t pts d s rest d' act hsp
    have hwp1 := sr_wellPlaced w h t pts d s f1 d1 hwp hsr
    exact DistMono.comp (sr_distMono w h t pts d s f1 d1 hwp hsr)
      (ih d1 d' act2 hwp1 hrest)

theorem sp_wellPlaced (w h : Nat) (t : List (List Nat)) (pts : List (Nat × Nat)) :
    ∀ (seeds : List VPoint) (d : VGrid) (d' : VGrid) (act : List VPoint),
      WellPlaced d → seedsPass w h t pts d seeds = some (d', act) →
      WellPlaced d' := by
  intro seeds
  induction seeds with
  | nil =>
    intro d d' act hwp hsp
    obtain ⟨rfl, rfl⟩ : d = d' ∧ [] = act := by
      simpa [seedsPass, Prod.ext_iff] using hsp
    exact hwp
  | cons s rest ih =>
    intro d d' act hwp hsp
    obtain ⟨f1, d1, act2, hsr, hrest, hact⟩ :=
      seedsPass_cons w h t pts d s rest d' act hsp
    exact ih d1 d' act2 (sr_wellPlaced w h t pts d s f1 d1 hwp hsr) hrest

theorem sp_sublist (w h : Nat) (t : List (List Nat)) (pts : List (Nat × Nat)) :
    ∀ (seeds : List VPoint) (d : VGrid) (d' : VGrid) (act : List VPoint),
      seedsPass w h t pts d seeds = some (d', act) → act.Sublist seeds := by
  intro seeds
  induction seeds with
  | nil =>
    intro d d' act hsp
    obtain ⟨rfl, rfl⟩ : d = d' ∧ [] = act := by
      simpa [seedsPass, Prod.ext_iff] using hsp
    exact List.Sublist.refl []
  | cons s rest ih =>
    intro d d' act hsp
    obtain ⟨f1, d1, act2, hsr, hrest, hact⟩ :=
      seedsPass_cons w h t pts d s rest d' act hsp
    have hsub := ih d1 d' act2 hrest
    rw [hact]
    cases f1 with
    | true => exact List.Sublist.cons₂ s hsub
    | false => exact List.Sublist.cons s hsub

theorem sp_unchanged_or (w h : Nat) (t : List (List Nat)) (pts : List (Nat × Nat)) :
    ∀ (seeds : List VPoint) (d : VGrid) (d' : VGrid) (act : List VPoint),
      WellPlaced d → seedsPass w h t pts d seeds = some (d', act) → ∀ x y,
      d' x y = d x y ∨
        ∃ s ∈ act, ∃ pt ∈ pts,
          ∃ off ∈ reflList ((pt.1 : Nat) : Int) ((pt.2 : Nat) : Int),
            x = s.x + off.1 ∧ y = s.y + off.2 := by
  intro seeds
  induction seeds with
  | nil =>
    intro d d' act _ hsp x y
    obtain ⟨rfl, rfl⟩ : d = d' ∧ [] = act := by
      simpa [seedsPass, Prod.ext_iff] using hsp
    exact Or.inl rfl
  | cons s rest ih =>
    intro d d' act hwp hsp x y
    obtain ⟨f1, d1, act2, hsr, hrest, hact⟩ :=
      seedsPass_cons w h t pts d s rest d' act hsp
    have hwp1 := sr_wellPlaced w h t pts d s f1 d1 hwp hsr
    rcases ih d1 d' act2 hwp1 hrest x y with hsame | ⟨s', hs', rest'⟩
    · rw [hsame]
      rcases sr_unchanged_or w h t pts d s f1 d1 hwp hsr x y with
        hsame0 | ⟨hflag, pt, hpt, off, hoff, hx, hy⟩
      · exact Or.inl hsame0
      · refine Or.inr ⟨s, ?_, pt, hpt, off, hoff, hx, hy⟩
        rw [hact, hflag]
        exact List.mem_cons_self _ _
    · refine Or.inr ⟨s', ?_, rest'⟩
      rw [hact]
      cases f1 with
      | true => exact List.mem_cons_of_mem _ hs'
      | false => exact hs'

theorem sp_ensures (w h : Nat) (t : List (List Nat)) (pts : List (Nat × Nat)) :
    ∀ (seeds : List VPoint) (d : VGrid) (d' : VGrid) (act : List VPoint),
      WellPlaced d → seedsPass w h t pts d seeds = some (d', act) →
      ∀ s ∈ seeds, ∀ pt ∈ pts,
        ∀ off ∈ reflList ((pt.1 : Nat) : Int) ((pt.2 : Nat) : Int),
          inCanvas w h (s.x + off.1) (s.y + off.2) →
          (d' (s.x + off.1) (s.y + off.2)).isSome := by
  intro seeds
  induction seeds with
  | nil => intro d d' act _ _ s hs; simp at hs
  | cons s0 rest ih =>
    intro d d' act hwp hsp s hs pt hpt off hoff hin
    obtain ⟨f1, d1, act2, hsr, hrest, hact⟩ :=
      seedsPass_cons w h t pts d s0 rest d' act hsp
    have hwp1 := sr_wellPlaced w h t pts d s0 f1 d1 hwp hsr
    rcases List.mem_cons.mp hs with rfl | hs'
    · have hsome := sr_ensures w h t pts d s f1 d1 hwp hsr pt hpt off hoff hin
      exact DistMono.isSome (sp_distMono w h t pts rest d1 d' act2 hwp1 hrest) _ _ hsome
    · exact ih d1 d' act2 hwp1 hrest s hs' pt hpt off hoff hin

theorem sp_active (w h : Nat) (t : List (List Nat)) (pts : List (Nat × Nat)) :
    ∀ (seeds : List VPoint) (d : VGrid) (d' : VGrid) (act : List VPoint),
      seedsPass w h t pts d seeds = some (d', act) →
      ∀ s ∈ act, ∃ pt ∈ pts,
        ∃ off ∈ reflList ((pt.1 : Nat) : Int) ((pt.2 : Nat) : Int),
          inCanvas w h (s.x + off.1) (s.y + off.2) := by
  intro seeds
  induction seeds with
  | nil =>
    intro d d' act hsp s hs
    obtain ⟨rfl, rfl⟩ : d = d' ∧ [] = act := by
      simpa [seedsPass, Prod.ext_iff] using hsp
    simp at hs
  | cons s0 rest ih =>
    intro d d' act hsp s hs
    obtain ⟨f1, d1, act2, hsr, hrest, hact⟩ :=
      seedsPass_cons w h t pts d s0 rest d' act hsp
    rw [hact] at hs
    cases f1 with
    | true =>
      rcases List.mem_cons.mp hs with rfl | hs'
      · exact sr_true_in w h t pts d s true d1 hsr rfl
      · exact ih d1 d' act2 hrest s hs'
    | false => exact ih d1 d' act2 hrest s hs

/-! ## Ring offset geometry -/

/-- L1 distance between two lattice points. -/
def l1 (ux uy x y : Int) : Nat := (x - ux).natAbs + (y - uy).natAbs

theorem reflList_natAbs (a b : Nat) :
    ∀ off ∈ reflList (a : Int) (b : Int), off.1.natAbs + off.2.natAbs = a + b := by
  intro off hoff
  simp only [reflList, List.mem_cons, List.not_mem_nil, or_false] at hoff
  rcases hoff with rfl | rfl | rfl | rfl | rfl | rfl | rfl | rfl <;>
    simp [Int.natAbs_neg] <;> omega

theorem mem_reflList_getRing (r : Nat) (off : Int × Int)
    (hsum : off.1.natAbs + off.2.natAbs = r) :
    ∃ pt ∈ getRing r, off ∈ reflList ((pt.1 : Nat) : Int) ((pt.2 : Nat) : Int) := by
  obtain ⟨q1, q2⟩ := off
  simp only at hsum
  rcases le_total q1.natAbs q2.natAbs with hle | hle
  · refine ⟨(q1.natAbs, q2.natAbs), getRing_mem r _ _ hle hsum, ?_⟩
    rcases Int.natAbs_eq q1 with h1 | h1 <;> rcases Int.natAbs_eq q2 with h2 | h2 <;>
      simp only [reflList, List.mem_cons, Prod.mk.injEq] <;> tauto
  · refine ⟨(q2.natAbs, q1.natAbs), getRing_mem r _ _ hle (by omega), ?_⟩
    rcases Int.natAbs_eq q1 with h1 | h1 <;> rcases Int.natAbs_eq q2 with h2 | h2 <;>
      simp only [reflList, List.mem_cons, Prod.mk.injEq] <;> tauto

/-! ## One iteration of the Tessellate loop -/

theorem tessellateStep_elim (v v' : Voronoi)
    (hstep : tessellateStep v = some v') :
    ∃ d' act, seedsPass v.width v.height v.distances (getRing (v.radius + 1))
        v.diagram v.activeSeeds = some (d', act) ∧
      v' = { v with radius := v.radius + 1, diagram := d', activeSeeds := act } := by
  unfold tessellateStep at hstep
  dsimp only at hstep
  cases hsp : seedsPass v.width v.height v.distances (getRing (v.radius + 1))
      v.diagram v.activeSeeds with
  | none => rw [hsp] at hstep; cases hstep
  | some gl =>
    rw [hsp] at hstep
    obtain ⟨d', act⟩ := gl
    simp only [Option.map_some', Option.some.injEq] at hstep
    exact ⟨d', act, rfl, hstep.symm⟩

theorem tessellateStep_fields (v v' : Voronoi)
    (hstep : tessellateStep v = some v') :
    v'.width = v.width ∧ v'.height = v.height ∧ v'.seeds = v.seeds ∧
      v'.distances = v.distances ∧ v'.numSeeds = v.numSeeds ∧
      v'.radius = v.radius + 1 := by
  obtain ⟨d', act, hsp, rfl⟩ := tessellateStep_elim v v' hstep
  exact ⟨rfl, rfl, rfl, rfl, rfl, rfl⟩

theorem tessellateLoop_succ (n : Nat) (v : Voronoi) :
    tessellateLoop (n + 1) v =
      if v.activeSeeds = [] then some v
      else (tessellateStep v).bind (tessellateLoop n) := rfl

theorem loop_empty (n : Nat) (v : Voronoi) (h : v.activeSeeds = []) :
    tessellateLoop n v = some v := by
  cases n with
  | zero => rfl
  | succ m => rw [tessellateLoop_succ, if_pos h]

theorem tessellateLoop_add (m n : Nat) :
    ∀ v : Voronoi, tessellateLoop (m + n) v =
      (tessellateLoop m v).bind (tessellateLoop n) := by
  induction m with
  | zero => intro v; simp [tessellateLoop]
  | succ k ih =>
    intro v
    by_cases hact : v.activeSeeds = []
    · rw [loop_empty _ _ hact, loop_empty _ _ hact, Option.some_bind,
        loop_empty _ _ hact]
    · have e1 : k + 1 + n = (k + n) + 1 := by omega
      rw [e1, tessellateLoop_succ, tessellateLoop_succ, if_neg hact, if_neg hact]
      cases hstep : tessellateStep v with
      | none => rfl
      | some v1 =>
        rw [Option.some_bind, Option.some_bind]
        exact ih v1

/-! ## Step success and the ring bound -/

theorem seedRing_isSome (w h : Nat) (t : List (List Nat)) :
    ∀ (pts : List (Nat × Nat)) (d : VGrid) (s : VPoint),
      (∀ pt ∈ pts, (tableGet t pt.1 pt.2).isSome) →
      (seedRing w h t pts d s).isSome := by
  intro pts
  induction pts with
  | nil => intro d s _; rfl
  | cons ab rest ih =>
    intro d s htbl
    obtain ⟨a, b⟩ := ab
    have h0 : (tableGet t a b).isSome := htbl (a, b) (List.mem_cons_self _ _)
    obtain ⟨dist, hd⟩ := Option.isSome_iff_exists.mp h0
    unfold seedRing
    rw [hd]
    dsimp only
    have h1 := ih (assignPointsToSeed w h d s dist (a : Int) (b : Int)).2 s
      (fun pt hpt => htbl pt (List.mem_cons_of_mem _ hpt))
    obtain ⟨fg, hfg⟩ := Option.isSome_iff_exists.mp h1
    rw [hfg]
    rfl

theorem seedsPass_isSome (w h : Nat) (t : List (List Nat))
    (pts : List (Nat × Nat))
    (htbl : ∀ pt ∈ pts, (tableGet t pt.1 pt.2).isSome) :
    ∀ (seeds : List VPoint) (d : VGrid),
      (seedsPass w h t pts d seeds).isSome := by
  intro seeds
  induction seeds with
  | nil => intro d; rfl
  | cons s rest ih =>
    intro d
    have h0 := seedRing_isSome w h t pts d s htbl
    obtain ⟨⟨f1, d1⟩, hd1⟩ := Option.isSome_iff_exists.mp h0
    unfold seedsPass
    rw [hd1, Option.some_bind]
    obtain ⟨gl, hgl⟩ := Option.isSome_iff_exists.mp (ih d1)
    rw [hgl]
    rfl

theorem getRing_table_isSome (w h r : Nat) (hy : r ≤ 2*h) (hx2 : r ≤ 4*w + 1) :
    ∀ pt ∈ getRing r, (tableGet (initDistancesL w h) pt.1 pt.2).isSome := by
  intro pt hpt
  have hsum := getRing_sum r pt hpt
  rw [tableGet_initDistancesL, if_pos (by omega)]
  rfl

theorem tessellateStep_isSome (v : Voronoi)
    (ht : v.distances = initDistancesL v.width v.height)
    (hy : v.radius + 1 ≤ 2*v.height) (hx : v.radius + 1 ≤ 4*v.width + 1) :
    (tessellateStep v).isSome := by
  unfold tessellateStep
  dsimp only
  have := seedsPass_isSome v.width v.height v.distances (getRing (v.radius + 1))
    (by rw [ht]; exact getRing_table_isSome _ _ _ hy hx) v.activeSeeds v.diagram
  obtain ⟨gl, hgl⟩ := Option.isSome_iff_exists.mp this
  rw [hgl]
  rfl

theorem step_ring_bound (v v' : Voronoi)
    (hact : ∀ s ∈ v.activeSeeds, inCanvas v.width v.height s.x s.y)
    (hstep : tessellateStep v = some v') (hne : v'.activeSeeds ≠ []) :
    v.radius + 1 + 2 ≤ v.width + v.height := by
  obtain ⟨d', act, hsp, rfl⟩ := tessellateStep_elim v v' hstep
  obtain ⟨s, hs⟩ := List.exists_mem_of_ne_nil _ hne
  have hs' : s ∈ act := hs
  obtain ⟨pt, hpt, off, hoff, hin⟩ :=
    sp_active v.width v.height v.distances (getRing (v.radius + 1))
      v.activeSeeds v.diagram d' act hsp s hs'
  have hsmem : s ∈ v.activeSeeds :=
    (sp_sublist v.width v.height v.distances (getRing (v.radius + 1))
      v.activeSeeds v.diagram d' act hsp).subset hs'
  have hscanvas := hact s hsmem
  have hsum := (getRing_sum _ pt hpt).1
  have habs := reflList_natAbs pt.1 pt.2 off hoff
  unfold inCanvas at hin hscanvas
  have h1 : off.1.natAbs ≤ v.width - 1 := by omega
  have h2 : off.2.natAbs ≤ v.height - 1 := by omega
  omega

theorem loop_completes : ∀ (n : Nat) (v : Voronoi),
    0 < v.width → 0 < v.height →
    v.width ≤ v.height + 1 → v.height ≤ 3 * v.width + 2 →
    v.distances = initDistancesL v.width v.height →
    (∀ s ∈ v.activeSeeds, inCanvas v.width v.height s.x s.y) →
    (v.activeSeeds ≠ [] → v.radius + 2 ≤ v.width + v.height) →
    v.width + v.height ≤ v.radius + n + 1 →
    ∃ v', tessellateLoop n v = some v' ∧ v'.activeSeeds = [] ∧
      v'.radius ≤ max v.radius (v.width + v.height - 1) := by
  intro n
  induction n with
  | zero =>
    intro v hw hh hwh hhw ht hact hrad hfuel
    refine ⟨v, rfl, ?_, le_max_left _ _⟩
    by_contra hne
    have := hrad hne
    omega
  | succ k ih =>
    intro v hw hh hwh hhw ht hact hrad hfuel
    by_cases hne : v.activeSeeds = []
    · exact ⟨v, loop_empty _ _ hne, hne, le_max_left _ _⟩
    · have hrb := hrad hne
      have hsome := tessellateStep_isSome v ht (by omega) (by omega)
      obtain ⟨v1, hstep⟩ := Option.isSome_iff_exists.mp hsome
      obtain ⟨hW, hH, hS, hD, hN, hR⟩ := tessellateStep_fields v v1 hstep
      have hact1 : ∀ s ∈ v1.activeSeeds, inCanvas v1.width v1.height s.x s.y := by
        intro s hs
        rw [hW, hH]
        apply hact
        refine List.Sublist.subset ?_ hs
        obtain ⟨d', act, hsp, hv1⟩ := tessellateStep_elim v v1 hstep
        have : v1.activeSeeds = act := by rw [hv1]
        rw [this]
        exact sp_sublist _ _ _ _ _ _ _ _ hsp
      have hrad1 : v1.activeSeeds ≠ [] → v1.radius + 2 ≤ v1.width + v1.height := by
        intro hne1
        rw [hW, hH, hR]
        have := step_ring_bound v v1 hact hstep hne1
        omega
      obtain ⟨v', hloop, hdone, hradle⟩ := ih v1
        (by rw [hW]; exact hw) (by rw [hH]; exact hh)
        (by rw [hW, hH]; exact hwh) (by rw [hW, hH]; exact hhw)
        (by rw [hD, hW, hH]; exact ht) hact1 hrad1
        (by rw [hW, hH, hR]; omega)
      refine ⟨v', ?_, hdone, ?_⟩
      · rw [tessellateLoop_succ, if_neg hne, hstep, Option.some_bind]
        exact hloop
      · rw [hW, hH, hR] at hradle
        omega

/-! ## Facts about the initialized state -/

theorem initSeedsL_inCanvas (g : Nat → Nat) (w h n : Nat) (hw : 0 < w)
    (hh : 0 < h) : ∀ s ∈ initSeedsL g w h n, inCanvas w h s.x s.y := by
  intro s hs
  simp only [initSeedsL, List.mem_map, List.mem_range] at hs
  obtain ⟨i, hi, rfl⟩ := hs
  have hx := Nat.mod_lt (g (6*i)) hw
  have hy := Nat.mod_lt (g (6*i+1)) hh
  unfold mkSeed inCanvas
  refine ⟨by positivity, ?_, by positivity, ?_⟩
  · show ((g (6*i) % w : Nat) : Int) < (w : Int)
    exact_mod_cast hx
  · show ((g (6*i+1) % h : Nat) : Int) < (h : Int)
    exact_mod_cast hy

theorem placeSeeds_wellPlaced : ∀ (ss : List VPoint) (d : VGrid),
    WellPlaced d → WellPlaced (placeSeeds d ss) := by
  intro ss
  induction ss with
  | nil => intro d hwp; exact hwp
  | cons s rest ih =>
    intro d hwp
    refine ih _ ?_
    show WellPlaced (updateGrid d s.x s.y (some s))
    intro x y p hp
    by_cases hxy : x = s.x ∧ y = s.y
    · rw [hxy.1, hxy.2, updateGrid_same] at hp
      obtain rfl := Option.some.inj hp
      exact ⟨hxy.1.symm, hxy.2.symm⟩
    · rw [updateGrid_ne _ _ _ _ _ _ hxy] at hp
      exact hwp _ _ _ hp

theorem vInit_wellPlaced (w h n : Nat) (g : Nat → Nat) :
    WellPlaced (vInit w h n g).diagram := by
  refine placeSeeds_wellPlaced _ _ ?_
  intro x y p hp
  simp [emptyDiagram] at hp

/-- C3 (amended): on grids whose aspect ratio keeps every ring lookup
inside the distances matrix (width at most height+1 and height at most
3*width+2; in particular every square grid), running the Tessellate loop
with fuel width+height reaches the empty active seed set, and the number
of rings processed, which equals the final radius, is at most
width+height-1. -/
theorem c3_termination_bound (w h n : Nat) (g : Nat → Nat) (hw : 0 < w)
    (hh : 0 < h) (hn : n ≤ w * h) (ha1 : w ≤ h + 1) (ha2 : h ≤ 3 * w + 2) :
    ∃ v', tessellateLoop (w + h) (vInit w h n g) = some v' ∧
      v'.activeSeeds = [] ∧ v'.radius ≤ w + h - 1 := by
  obtain ⟨v', h1, h2, h3⟩ := loop_completes (w + h) (vInit w h n g) hw hh
    ha1 ha2 rfl (initSeedsL_inCanvas g w h n hw hh)
    (fun _ => by show 0 + 2 ≤ w + h; omega)
    (by show w + h ≤ 0 + (w + h) + 1; omega)
  refine ⟨v', h1, h2, ?_⟩
  have h4 : v'.radius ≤ max 0 (w + h - 1) := h3
  omega

/-- C3 counterexample: on the valid 3-by-1 canvas with one seed at the
origin, the run never reaches an empty active seed set: at ring 3 the
distances lookup indexes out of range, so the Go program fails. -/
theorem c3_counterexample :
    ¬ ∃ (m : Nat) (v' : Voronoi),
        tessellateLoop m (vInit 3 1 1 (fun _ => 0)) = some v' ∧
        v'.activeSeeds = [] := by
  rintro ⟨m, v', hrun, hdone⟩
  by_cases hm : m ≤ 2
  · have hact : (tessellateLoop m (vInit 3 1 1 (fun _ => 0))).map
        Voronoi.activeSeeds = some v'.activeSeeds := by
      rw [hrun]; rfl
    rw [hdone] at hact
    interval_cases m
    · exact absurd hact (by decide)
    · exact absurd hact (by decide)
    · exact absurd hact (by decide)
  · obtain ⟨k, rfl⟩ := Nat.exists_eq_add_of_le (show 3 ≤ m by omega)
    rw [tessellateLoop_add 3 k] at hrun
    have h3 : (tessellateLoop 3 (vInit 3 1 1 (fun _ => 0))).isNone = true := by
      decide
    rw [Option.isNone_iff_eq_none.mp h3, Option.none_bind] at hrun
    cases hrun

/-- C3 witness: on the 2-by-2 canvas with one seed the loop completes
with an empty active set within 4 rings and final radius at most 3. -/
theorem c3_termination_bound_witness :
    ∃ v', tessellateLoop (2 + 2) (vInit 2 2 1 (fun _ => 0)) = some v' ∧
      v'.activeSeeds = [] ∧ v'.radius ≤ 2 + 2 - 1 :=
  c3_termination_bound 2 2 1 (fun _ => 0) (by decide) (by decide) (by decide)
    (by decide) (by decide)

/-- C4 (amended): on grids with width at most height+1 and height at most
3*width+2 (in particular every square grid, which is how the program uses
the engine), every distances lookup stays inside the matrix, so the
Tessellate loop never fails no matter how many rings are run. -/
theorem c4_lookups_safe (w h n : Nat) (g : Nat → Nat) (hw : 0 < w)
    (hh : 0 < h) (hn : n ≤ w * h) (ha1 : w ≤ h + 1) (ha2 : h ≤ 3 * w + 2) :
    ∀ m : Nat, (tessellateLoop m (vInit w h n g)).isSome = true := by
  obtain ⟨vf, hN, hdone, _⟩ := loop_completes (w + h) (vInit w h n g) hw hh
    ha1 ha2 rfl (initSeedsL_inCanvas g w h n hw hh)
    (fun _ => by show 0 + 2 ≤ w + h; omega)
    (by show w + h ≤ 0 + (w + h) + 1; omega)
  intro m
  by_cases hm : m ≤ w + h
  · obtain ⟨k, hk⟩ := Nat.exists_eq_add_of_le hm
    rw [hk, tessellateLoop_add] at hN
    cases hpre : tessellateLoop m (vInit w h n g) with
    | none => rw [hpre, Option.none_bind] at hN; cases hN
    | some _ => rfl
  · obtain ⟨k, rfl⟩ := Nat.exists_eq_add_of_le (Nat.le_of_not_le hm)
    rw [tessellateLoop_add, hN, Option.some_bind, loop_empty k vf hdone]
    rfl

/-- C4 counterexample: on the valid 3-by-1 canvas with one seed at the
origin the third ring looks up distances(0)(3), which is out of range for
the 3-column row, so Step fails: the loop returns none. -/
theorem c4_counterexample :
    tessellateLoop 3 (vInit 3 1 1 (fun _ => 0)) = none := by
  have h3 : (tessellateLoop 3 (vInit 3 1 1 (fun _ => 0))).isNone = true := by
    decide
  exact Option.isNone_iff_eq_none.mp h3

/-- C4 witness: a concrete safe run on the 2-by-2 canvas. -/
theorem c4_lookups_safe_witness :
    (tessellateLoop 7 (vInit 2 2 1 (fun _ => 0))).isSome = true :=
  c4_lookups_safe 2 2 1 (fun _ => 0) (by decide) (by decide) (by decide)
    (by decide) (by decide) 7

/-- C7 (amended): a cell that is already assigned with stored distance d
is only ever overwritten with a distance at most d.  The overwrite can be
at a strictly smaller distance (see the counterexample): a seed that is
farther in the L1 ring order but closer in squared Euclidean distance
reaches the cell in a later ring and replaces its owner. -/
theorem c7_overwrite_le (w h : Nat) (d : VGrid) (s : VPoint) (dist : Nat)
    (dx dy : Int) (hwp : WellPlaced d) (x y : Int) (p p' : VPoint)
    (n n' : Nat) (hold : d x y = some p) (holdd : p.dist = some n)
    (hnew : (assignPointToSeed w h d s dist dx dy).2 x y = some p')
    (hnewd : p'.dist = some n') : n' ≤ n := by
  obtain ⟨q, hq, hqd⟩ := aps_distMono w h d s dist dx dy hwp x y p hold
  rw [hnew] at hq
  obtain rfl := Option.some.inj hq
  obtain ⟨m, hm, hmn⟩ := hqd n holdd
  rw [hnewd] at hm
  obtain rfl := Option.some.inj hm
  exact hmn

set_option maxHeartbeats 2000000 in
/-- C7 counterexample: on a 4-by-3 canvas with seeds at (0,0) and (1,2),
cell (3,0) is assigned by the first seed at ring 3 with stored distance 9
and then reassigned by the second seed at ring 4 with the strictly
smaller distance 8 and the second seed color: an assigned cell is
reassigned at a strictly smaller distance, and the successful overwrite
does not store the same distance. -/
theorem c7_counterexample :
    ((tessellateLoop 3 (vInit 4 3 2
        (fun k => [0,0,1,0,0,0,1,2,2,0,0,0].getD k 0))).bind
        (fun v => v.diagram 3 0)).map (fun p => (p.dist, p.color)) =
      some (some 9, some ⟨1, 0, 0, 0⟩) ∧
    ((tessellateLoop 4 (vInit 4 3 2
        (fun k => [0,0,1,0,0,0,1,2,2,0,0,0].getD k 0))).bind
        (fun v => v.diagram 3 0)).map (fun p => (p.dist, p.color)) =
      some (some 8, some ⟨2, 0, 0, 0⟩) ∧
    8 < 9 := by
  refine ⟨?_, ?_, by omega⟩
  · decide
  · decide

/-- C7 witness: a concrete overwrite at an equal distance stores a value
at most the old one. -/
theorem c7_overwrite_le_witness : (2 : Nat) ≤ 2 := by
  have hwp : WellPlaced (updateGrid emptyDiagram 1 0
      (some { x := 1, y := 0, dist := some 2, color := none })) := by
    intro x y p hp
    by_cases hxy : x = 1 ∧ y = 0
    · rw [hxy.1, hxy.2, updateGrid_same] at hp
      obtain rfl := Option.some.inj hp
      exact ⟨hxy.1.symm, hxy.2.symm⟩
    · rw [updateGrid_ne _ _ _ _ _ _ hxy] at hp
      simp [emptyDiagram] at hp
  exact c7_overwrite_le 2 2 (updateGrid emptyDiagram 1 0
      (some { x := 1, y := 0, dist := some 2, color := none }))
      { x := 0, y := 1, dist := some 0, color := some ⟨5, 5, 5, 5⟩ } 2 1 (-1)
      hwp 1 0
      { x := 1, y := 0, dist := some 2, color := none }
      { x := 1, y := 0, dist := some 2, color := some ⟨5, 5, 5, 5⟩ } 2 2
      (by decide) rfl (by decide) rfl

/-! ## Preservation across whole loop runs -/

theorem step_wellPlaced (v v' : Voronoi) (hwp : WellPlaced v.diagram)
    (hstep : tessellateStep v = some v') : WellPlaced v'.diagram := by
  obtain ⟨d', act, hsp, rfl⟩ := tessellateStep_elim v v' hstep
  exact sp_wellPlaced _ _ _ _ _ _ _ _ hwp hsp

theorem step_distMono (v v' : Voronoi) (hwp : WellPlaced v.diagram)
    (hstep : tessellateStep v = some v') : DistMono v.diagram v'.diagram := by
  obtain ⟨d', act, hsp, rfl⟩ := tessellateStep_elim v v' hstep
  exact sp_distMono _ _ _ _ _ _ _ _ hwp hsp

theorem loop_wellPlaced (n : Nat) : ∀ v v' : Voronoi, WellPlaced v.diagram →
    tessellateLoop n v = some v' → WellPlaced v'.diagram := by
  induction n with
  | zero =>
    intro v v' hwp hrun
    obtain rfl := Option.some.inj hrun
    exact hwp
  | succ k ih =>
    intro v v' hwp hrun
    rw [tessellateLoop_succ] at hrun
    by_cases hact : v.activeSeeds = []
    · rw [if_pos hact] at hrun
      obtain rfl := Option.some.inj hrun
      exact hwp
    · rw [if_neg hact] at hrun
      cases hstep : tessellateStep v with
      | none => rw [hstep, Option.none_bind] at hrun; cases hrun
      | some v1 =>
        rw [hstep, Option.some_bind] at hrun
        exact ih v1 v' (step_wellPlaced v v1 hwp hstep) hrun

theorem loop_distMono (n : Nat) : ∀ v v' : Voronoi, WellPlaced v.diagram →
    tessellateLoop n v = some v' → DistMono v.diagram v'.diagram := by
  induction n with
  | zero =>
    intro v v' hwp hrun
    obtain rfl := Option.some.inj hrun
    exact DistMono.rfl _
  | succ k ih =>
    intro v v' hwp hrun
    rw [tessellateLoop_succ] at hrun
    by_cases hact : v.activeSeeds = []
    · rw [if_pos hact] at hrun
      obtain rfl := Option.some.inj hrun
      exact DistMono.rfl _
    · rw [if_neg hact] at hrun
      cases hstep : tessellateStep v with
      | none => rw [hstep, Option.none_bind] at hrun; cases hrun
      | some v1 =>
        rw [hstep, Option.some_bind] at hrun
        exact DistMono.comp (step_distMono v v1 hwp hstep)
          (ih v1 v' (step_wellPlaced v v1 hwp hstep) hrun)

/-- C10: between any two states reachable from a valid initialization,
where the second is reached from the first by further Step calls, the
diagram evolves monotonically: an assigned cell never becomes unassigned,
and its stored distance never increases, because a claim replaces a cell
owner only when the candidate distance is at most the stored one; only
Init rebuilds the diagram from scratch. -/
theorem c10_evolution (w h k : Nat) (g : Nat → Nat) (m n : Nat)
    (v1 v2 : Voronoi) (h1 : tessellateLoop m (vInit w h k g) = some v1)
    (h2 : tessellateLoop n v1 = some v2) :
    DistMono v1.diagram v2.diagram := by
  have hwp1 := loop_wellPlaced m (vInit w h k g) v1 (vInit_wellPlaced w h k g) h1
  exact loop_distMono n v1 v2 hwp1 h2

/-- C10 witness: the evolution relation between the initial 2-by-2 state
and the state after one ring. -/
theorem c10_evolution_witness :
    DistMono (vInit 2 2 1 (fun _ => 0)).diagram
      ((tessellateLoop 1 (vInit 2 2 1 (fun _ => 0))).get (by decide)).diagram :=
  c10_evolution 2 2 1 (fun _ => 0) 0 1 (vInit 2 2 1 (fun _ => 0))
    ((tessellateLoop 1 (vInit 2 2 1 (fun _ => 0))).get (by decide)) rfl
    (Option.some_get _).symm

/-! ## Active seed set bookkeeping -/

theorem seedsPass_append (w h : Nat) (t : List (List Nat))
    (pts : List (Nat × Nat)) : ∀ (l1 l2 : List VPoint) (d : VGrid),
    seedsPass w h t pts d (l1 ++ l2) =
      (seedsPass w h t pts d l1).bind fun gl1 =>
        (seedsPass w h t pts gl1.1 l2).map fun gl2 => (gl2.1, gl1.2 ++ gl2.2) := by
  intro l1
  induction l1 with
  | nil =>
    intro l2 d
    show seedsPass w h t pts d l2 = (some (d, [])).bind _
    rw [Option.some_bind]
    cases hsp : seedsPass w h t pts d l2 with
    | none => rfl
    | some gl => simp
  | cons s rest ih =>
    intro l2 d
    show (seedRing w h t pts d s).bind _ = ((seedRing w h t pts d s).bind _).bind _
    cases hsr : seedRing w h t pts d s with
    | none => rfl
    | some bg =>
      rw [Option.some_bind, Option.some_bind]
      simp only [List.append_eq]
      rw [ih l2 bg.2]
      cases hsp : seedsPass w h t pts bg.2 rest with
      | none => rfl
      | some gl1 =>
        rw [Option.some_bind, Option.map_some', Option.some_bind]
        cases hsp2 : seedsPass w h t pts gl1.1 l2 with
        | none => rfl
        | some gl2 =>
          simp only [Option.map_some']
          cases bg.1 <;> simp

theorem loop_sublist (n : Nat) : ∀ v v' : Voronoi,
    tessellateLoop n v = some v' → v'.activeSeeds.Sublist v.activeSeeds := by
  induction n with
  | zero =>
    intro v v' hrun
    obtain rfl := Option.some.inj hrun
    exact List.Sublist.refl _
  | succ k ih =>
    intro v v' hrun
    rw [tessellateLoop_succ] at hrun
    by_cases hact : v.activeSeeds = []
    · rw [if_pos hact] at hrun
      obtain rfl := Option.some.inj hrun
      exact List.Sublist.refl _
    · rw [if_neg hact] at hrun
      cases hstep : tessellateStep v with
      | none => rw [hstep, Option.none_bind] at hrun; cases hrun
      | some v1 =>
        rw [hstep, Option.some_bind] at hrun
        refine List.Sublist.trans (ih v1 v' hrun) ?_
        obtain ⟨d', act, hsp, rfl⟩ := tessellateStep_elim v v1 hstep
        exact sp_sublist _ _ _ _ _ _ _ _ hsp

/-- C8: after one ring, the new active seed set is an order-preserving
selection of the previous one; splitting the previous active list around
any seed s, the seeds before s are processed first, then s claims its
ring with outcome b, and s is kept for the next ring exactly when b is
true, that is, when at least one of its claim attempts this ring
succeeded; and a seed absent from the active set is absent from every
later active set until the next Init. -/
theorem c8_active_set (v v' : Voronoi) (hstep : tessellateStep v = some v') :
    v'.activeSeeds.Sublist v.activeSeeds
    ∧ (∀ pre s post, v.activeSeeds = pre ++ s :: post →
        ∃ g1 preAct b gs g2 postAct,
          seedsPass v.width v.height v.distances (getRing (v.radius + 1))
            v.diagram pre = some (g1, preAct) ∧
          seedRing v.width v.height v.distances (getRing (v.radius + 1))
            g1 s = some (b, gs) ∧
          seedsPass v.width v.height v.distances (getRing (v.radius + 1))
            gs post = some (g2, postAct) ∧
          v'.activeSeeds = preAct ++ (if b then s :: postAct else postAct))
    ∧ (∀ s, s ∉ v'.activeSeeds → ∀ n v'', tessellateLoop n v' = some v'' →
        s ∉ v''.activeSeeds) := by
  obtain ⟨d', act, hsp, rfl⟩ := tessellateStep_elim v v' hstep
  refine ⟨sp_sublist _ _ _ _ _ _ _ _ hsp, ?_, ?_⟩
  · intro pre s post hdec
    rw [hdec, seedsPass_append] at hsp
    cases hpre : seedsPass v.width v.height v.distances
        (getRing (v.radius + 1)) v.diagram pre with
    | none => rw [hpre, Option.none_bind] at hsp; cases hsp
    | some gl1 =>
      rw [hpre, Option.some_bind] at hsp
      cases hrest : seedsPass v.width v.height v.distances
          (getRing (v.radius + 1)) gl1.1 (s :: post) with
      | none => rw [hrest] at hsp; cases hsp
      | some gl2 =>
        rw [hrest, Option.map_some'] at hsp
        obtain ⟨b, gs, postAct, hsr, hpost, hact2⟩ :=
          seedsPass_cons _ _ _ _ _ _ _ _ _ hrest
        refine ⟨gl1.1, gl1.2, b, gs, gl2.1, postAct, congrArg some Prod.mk.eta.symm, hsr, hpost, ?_⟩
        obtain ⟨hd, hact⟩ := Prod.ext_iff.mp (Option.some.inj hsp)
        dsimp only at hact
        show act = _
        rw [← hact, hact2]
  · intro s hs n v'' hrun
    intro hmem
    exact hs ((loop_sublist n _ v'' hrun).subset hmem)

/-- C8 witness: after the first ring on the 2-by-2 canvas, the new active
set is an order-preserving selection of the previous one. -/
theorem c8_active_set_witness :
    ((tessellateStep (vInit 2 2 1 (fun _ => 0))).get (by decide)).activeSeeds.Sublist
      (vInit 2 2 1 (fun _ => 0)).activeSeeds :=
  (c8_active_set (vInit 2 2 1 (fun _ => 0))
    ((tessellateStep (vInit 2 2 1 (fun _ => 0))).get (by decide))
    (Option.some_get _).symm).1

/-! ## Pixel export -/

theorem rowcol_inj (w i x j y : Nat) (hi : i < w) (hx : x < w)
    (heq : j * w + i = y * w + x) : j = y ∧ i = x := by
  have hw : 0 < w := Nat.lt_of_le_of_lt (Nat.zero_le i) hi
  have h1 : (j * w + i) % w = i := by
    rw [Nat.add_comm, Nat.add_mul_mod_self_right, Nat.mod_eq_of_lt hi]
  have h2 : (y * w + x) % w = x := by
    rw [Nat.add_comm, Nat.add_mul_mod_self_right, Nat.mod_eq_of_lt hx]
  have hix : i = x := by rw [← h1, ← h2, heq]
  subst hix
  have : j * w = y * w := by omega
  exact ⟨Nat.eq_of_mul_eq_mul_right hw this, rfl⟩

/-- The byte of channel k rendered for cell (x, y) by the first ToPixels
loop. -/
def cellByte (v : Voronoi) (x y k : Nat) : Nat :=
  match (v.diagram (x : Int) (y : Int)).bind (fun p => p.color) with
  | some c => [c.r, c.g, c.b, c.a].getD k 0
  | none => 0

theorem writePixelAt_length (v : Voronoi) (px : List Nat) (i j : Nat) :
    (writePixelAt v px i j).length = px.length := by
  unfold writePixelAt
  cases (v.diagram (i : Int) (j : Int)).bind (fun p => p.color) <;>
    simp [List.length_set]

theorem writePixelAt_get_ne (v : Voronoi) (px : List Nat) (i j q : Nat)
    (hq : ∀ k, k < 4 → q ≠ (j * v.width + i) * 4 + k) :
    (writePixelAt v px i j)[q]? = px[q]? := by
  have h0 := hq 0 (by omega)
  have h1 := hq 1 (by omega)
  have h2 := hq 2 (by omega)
  have h3 := hq 3 (by omega)
  unfold writePixelAt
  cases (v.diagram (i : Int) (j : Int)).bind (fun p => p.color) <;>
    dsimp only <;>
    rw [List.getElem?_set_ne (by omega), List.getElem?_set_ne (by omega),
      List.getElem?_set_ne (by omega), List.getElem?_set_ne (by omega)]

theorem writePixelAt_get (v : Voronoi) (px : List Nat) (i j k : Nat)
    (hk : k < 4) (hlen : (j * v.width + i) * 4 + 3 < px.length) :
    (writePixelAt v px i j)[(j * v.width + i) * 4 + k]? =
      some (cellByte v i j k) := by
  unfold writePixelAt cellByte
  cases (v.diagram (i : Int) (j : Int)).bind (fun p => p.color) with
  | none =>
    dsimp only
    interval_cases k
    · simp only [Nat.add_zero]
      rw [List.getElem?_set_ne (by omega), List.getElem?_set_ne (by omega),
        List.getElem?_set_ne (by omega),
        List.getElem?_set_eq_of_lt _ (by (try simp only [List.length_set]); omega)]
    · rw [List.getElem?_set_ne (by omega), List.getElem?_set_ne (by omega),
        List.getElem?_set_eq_of_lt _ (by (try simp only [List.length_set]); omega)]
    · rw [List.getElem?_set_ne (by omega),
        List.getElem?_set_eq_of_lt _ (by (try simp only [List.length_set]); omega)]
    · rw [List.getElem?_set_eq_of_lt _ (by (try simp only [List.length_set]); omega)]
  | some c =>
    dsimp only
    interval_cases k
    · simp only [Nat.add_zero]
      rw [List.getElem?_set_ne (by omega), List.getElem?_set_ne (by omega),
        List.getElem?_set_ne (by omega),
        List.getElem?_set_eq_of_lt _ (by (try simp only [List.length_set]); omega)]
      rfl
    · rw [List.getElem?_set_ne (by omega), List.getElem?_set_ne (by omega),
        List.getElem?_set_eq_of_lt _ (by (try simp only [List.length_set]); omega)]
      rfl
    · rw [List.getElem?_set_ne (by omega),
        List.getElem?_set_eq_of_lt _ (by (try simp only [List.length_set]); omega)]
      rfl
    · rw [List.getElem?_set_eq_of_lt _ (by (try simp only [List.length_set]); omega)]
      rfl

theorem cell_lt (w h x y : Nat) (hx : x < w) (hy : y < h) :
    y * w + x < w * h := by
  calc y * w + x < (y + 1) * w := by
        rw [Nat.succ_mul]
        omega
    _ ≤ h * w := Nat.mul_le_mul_right w hy
    _ = w * h := Nat.mul_comm h w

theorem innerFold_length (v : Voronoi) (i : Nat) : ∀ (m : Nat) (px : List Nat),
    ((List.range m).foldl (fun px j => writePixelAt v px i j) px).length =
      px.length := by
  intro m
  induction m with
  | zero => intro px; rfl
  | succ n ih =>
    intro px
    rw [List.range_succ, List.foldl_append, List.foldl_cons, List.foldl_nil,
      writePixelAt_length, ih]

theorem inner_untouched (v : Voronoi) (i x y k : Nat) (hk : k < 4)
    (hi : i < v.width) (hx : x < v.width) (hne : i ≠ x) :
    ∀ (m : Nat) (px : List Nat),
    ((List.range m).foldl (fun px j => writePixelAt v px i j)
      px)[(y * v.width + x) * 4 + k]? = px[(y * v.width + x) * 4 + k]? := by
  intro m
  induction m with
  | zero => intro px; rfl
  | succ n ih =>
    intro px
    rw [List.range_succ, List.foldl_append, List.foldl_cons, List.foldl_nil]
    rw [writePixelAt_get_ne]
    · exact ih px
    · intro k' hk' heq
      have h1 : n * v.width + i = y * v.width + x ∧ k = k' := by omega
      exact hne (rowcol_inj v.width i x n y hi hx h1.1).2

theorem inner_writes (v : Voronoi) (i y k : Nat) (hk : k < 4)
    (hi : i < v.width) : ∀ (m : Nat) (px : List Nat), y < m →
    (y * v.width + i) * 4 + 3 < px.length →
    ((List.range m).foldl (fun px j => writePixelAt v px i j)
      px)[(y * v.width + i) * 4 + k]? = some (cellByte v i y k) := by
  intro m
  induction m with
  | zero => intro px hy; omega
  | succ n ih =>
    intro px hy hlen
    rw [List.range_succ, List.foldl_append, List.foldl_cons, List.foldl_nil]
    by_cases hyn : y = n
    · subst hyn
      exact writePixelAt_get v _ i y k hk (by rw [innerFold_length]; exact hlen)
    · rw [writePixelAt_get_ne]
      · exact ih px (by omega) hlen
      · intro k' hk' heq
        have h1 : n * v.width + i = y * v.width + i ∧ k = k' := by omega
        exact hyn ((rowcol_inj v.width i i n y hi hi h1.1).1).symm

theorem outerFold_length (v : Voronoi) : ∀ (m : Nat) (px : List Nat),
    ((List.range m).foldl (fun px i => (List.range v.height).foldl
      (fun px j => writePixelAt v px i j) px) px).length = px.length := by
  intro m
  induction m with
  | zero => intro px; rfl
  | succ n ih =>
    intro px
    rw [List.range_succ, List.foldl_append, List.foldl_cons, List.foldl_nil,
      innerFold_length, ih]

theorem outer_get (v : Voronoi) (x y k : Nat) (hk : k < 4)
    (hx : x < v.width) (hy : y < v.height) :
    ∀ (m : Nat) (px : List Nat), x < m → m ≤ v.width →
    px.length = v.width * v.height * 4 →
    ((List.range m).foldl (fun px i => (List.range v.height).foldl
      (fun px j => writePixelAt v px i j) px)
      px)[(y * v.width + x) * 4 + k]? = some (cellByte v x y k) := by
  intro m
  induction m with
  | zero => intro px hxm; omega
  | succ n ih =>
    intro px hxm hm hlen
    rw [List.range_succ, List.foldl_append, List.foldl_cons, List.foldl_nil]
    by_cases hxn : x = n
    · subst hxn
      refine inner_writes v x y k hk hx v.height _ hy ?_
      rw [outerFold_length, hlen]
      have := cell_lt v.width v.height x y hx hy
      omega
    · rw [inner_untouched v n x y k hk (by omega) hx (fun he => hxn he.symm)]
      exact ih px (by omega) (by omega) hlen

theorem set4zero_length (px : List Nat) (pos : Nat) :
    ((((px.set pos 0).set (pos+1) 0).set (pos+2) 0).set (pos+3) 0).length =
      px.length := by
  simp [List.length_set]

theorem set4zero_get (px : List Nat) (pos k : Nat) (hk : k < 4)
    (hlen : pos + 3 < px.length) :
    ((((px.set pos 0).set (pos+1) 0).set (pos+2) 0).set
      (pos+3) 0)[pos + k]? = some 0 := by
  interval_cases k
  · simp only [Nat.add_zero]
    rw [List.getElem?_set_ne (by omega), List.getElem?_set_ne (by omega),
      List.getElem?_set_ne (by omega),
      List.getElem?_set_eq_of_lt _ (by (try simp only [List.length_set]); omega)]
  · rw [List.getElem?_set_ne (by omega), List.getElem?_set_ne (by omega),
      List.getElem?_set_eq_of_lt _ (by (try simp only [List.length_set]); omega)]
  · rw [List.getElem?_set_ne (by omega),
      List.getElem?_set_eq_of_lt _ (by (try simp only [List.length_set]); omega)]
  · rw [List.getElem?_set_eq_of_lt _ (by (try simp only [List.length_set]); omega)]

theorem set4zero_get_ne (px : List Nat) (pos q : Nat)
    (hq : ∀ k', k' < 4 → q ≠ pos + k') :
    ((((px.set pos 0).set (pos+1) 0).set (pos+2) 0).set (pos+3) 0)[q]? =
      px[q]? := by
  have h0 := hq 0 (by omega)
  have h1 := hq 1 (by omega)
  have h2 := hq 2 (by omega)
  have h3 := hq 3 (by omega)
  rw [List.getElem?_set_ne (by omega), List.getElem?_set_ne (by omega),
    List.getElem?_set_ne (by omega), List.getElem?_set_ne (by omega)]

theorem seedPos_toNat (w : Nat) (s : VPoint) (hx : 0 ≤ s.x) (hy : 0 ≤ s.y) :
    ((s.y * (w : Int) + s.x) * 4).toNat = (s.y.toNat * w + s.x.toNat) * 4 := by
  obtain ⟨a, ha⟩ := Int.eq_ofNat_of_zero_le hx
  obtain ⟨b, hb⟩ := Int.eq_ofNat_of_zero_le hy
  rw [ha, hb]
  have : ((b : Int) * (w : Int) + (a : Int)) * 4 = ((b * w + a) * 4 : Nat) := by
    push_cast
    ring
  rw [this, Int.toNat_natCast]
  simp [ha, hb]

theorem seedsFold_length (v : Voronoi) : ∀ (ss : List VPoint) (px : List Nat),
    (ss.foldl (fun px s =>
      let pos := ((s.y * (v.width : Int) + s.x) * 4).toNat
      (((px.set pos 0).set (pos+1) 0).set (pos+2) 0).set (pos+3) 0)
      px).length = px.length := by
  intro ss
  induction ss with
  | nil => intro px; rfl
  | cons s rest ih =>
    intro px
    rw [List.foldl_cons, ih]
    exact set4zero_length _ _

theorem seedsFold_get (v : Voronoi) (x y k : Nat) (hk : k < 4)
    (hx : x < v.width) (hy : y < v.height) :
    ∀ (ss : List VPoint) (px : List Nat),
      (∀ s ∈ ss, inCanvas v.width v.height s.x s.y) →
      px.length = v.width * v.height * 4 →
      (ss.foldl (fun px s =>
        let pos := ((s.y * (v.width : Int) + s.x) * 4).toNat
        (((px.set pos 0).set (pos+1) 0).set (pos+2) 0).set (pos+3) 0)
        px)[(y * v.width + x) * 4 + k]? =
      if ∃ s ∈ ss, s.x = (x : Int) ∧ s.y = (y : Int) then some 0
      else px[(y * v.width + x) * 4 + k]? := by
  intro ss
  induction ss with
  | nil =>
    intro px _ _
    rw [if_neg (by simp)]
    rfl
  | cons s0 rest ih =>
    intro px hss hlen
    have hin0 := hss s0 (List.mem_cons_self _ _)
    obtain ⟨hx0, hx1, hy0, hy1⟩ := hin0
    have hpos := seedPos_toNat v.width s0 hx0 hy0
    have hxa : s0.x = (s0.x.toNat : Int) := (Int.toNat_of_nonneg hx0).symm
    have hya : s0.y = (s0.y.toNat : Int) := (Int.toNat_of_nonneg hy0).symm
    have hxw : s0.x.toNat < v.width := by omega
    have hyh : s0.y.toNat < v.height := by omega
    rw [List.foldl_cons]
    dsimp only
    rw [hpos]
    by_cases hat : s0.x.toNat = x ∧ s0.y.toNat = y
    · have hhead : s0.x = (x : Int) ∧ s0.y = (y : Int) := by
        constructor
        · rw [hxa, hat.1]
        · rw [hya, hat.2]
      rw [if_pos ⟨s0, List.mem_cons_self _ _, hhead⟩]
      rw [ih _ (fun s hs => hss s (List.mem_cons_of_mem _ hs))
        (by rw [set4zero_length]; exact hlen)]
      by_cases hrest : ∃ s ∈ rest, s.x = (x : Int) ∧ s.y = (y : Int)
      · rw [if_pos hrest]
      · rw [if_neg hrest, hat.1, hat.2]
        refine set4zero_get px _ k hk ?_
        have := cell_lt v.width v.height x y hx hy
        omega
    · have hne : ¬(s0.x = (x : Int) ∧ s0.y = (y : Int)) := by
        intro hcon
        refine hat ⟨?_, ?_⟩
        · have := hcon.1
          omega
        · have := hcon.2
          omega
      rw [ih _ (fun s hs => hss s (List.mem_cons_of_mem _ hs))
        (by rw [set4zero_length]; exact hlen)]
      have hget : ((((px.set ((s0.y.toNat * v.width + s0.x.toNat) * 4) 0).set
          ((s0.y.toNat * v.width + s0.x.toNat) * 4 + 1) 0).set
          ((s0.y.toNat * v.width + s0.x.toNat) * 4 + 2) 0).set
          ((s0.y.toNat * v.width + s0.x.toNat) * 4 + 3)
          0)[(y * v.width + x) * 4 + k]? = px[(y * v.width + x) * 4 + k]? := by
        refine set4zero_get_ne px _ _ ?_
        intro k' hk' heq
        have h1 : y * v.width + x = s0.y.toNat * v.width + s0.x.toNat ∧ k = k' := by
          omega
        obtain ⟨he1, he2⟩ := rowcol_inj v.width x s0.x.toNat y s0.y.toNat hx hxw h1.1
        exact hat ⟨he2.symm, he1.symm⟩
      rw [hget]
      by_cases hrest : ∃ s ∈ rest, s.x = (x : Int) ∧ s.y = (y : Int)
      · rw [if_pos hrest, if_pos (by
          obtain ⟨s, hs, hp⟩ := hrest
          exact ⟨s, List.mem_cons_of_mem _ hs, hp⟩)]
      · rw [if_neg hrest, if_neg (by
          intro hcon
          obtain ⟨s, hs, hp⟩ := hcon
          rcases List.mem_cons.mp hs with rfl | hs'
          · exact hne hp
          · exact hrest ⟨s, hs', hp⟩)]

/-- C9: for every engine state whose seeds lie inside the canvas (which
holds for every initialized state), Export produces exactly
width*height*4 bytes; the byte at offset (y*width+x)*4+k is channel k of
the RGBA color of cell (x, y), with unassigned or colorless cells
contributing four zero bytes, and every position occupied by a seed
contributing four zero bytes regardless of the stored color.  The
function is total: it never fails. -/
theorem c9_export (v : Voronoi)
    (hseeds : ∀ s ∈ v.seeds, inCanvas v.width v.height s.x s.y) :
    v.ToPixels.length = v.width * v.height * 4
    ∧ ∀ x y k : Nat, x < v.width → y < v.height → k < 4 →
      v.ToPixels[(y * v.width + x) * 4 + k]? =
        (if ∃ s ∈ v.seeds, s.x = (x : Int) ∧ s.y = (y : Int) then some 0
         else some (cellByte v x y k)) := by
  constructor
  · unfold Voronoi.ToPixels
    dsimp only
    rw [seedsFold_length, outerFold_length, List.length_replicate]
  · intro x y k hx hy hk
    unfold Voronoi.ToPixels
    dsimp only
    rw [seedsFold_get v x y k hk hx hy v.seeds _ hseeds
      (by rw [outerFold_length, List.length_replicate])]
    by_cases hseed : ∃ s ∈ v.seeds, s.x = (x : Int) ∧ s.y = (y : Int)
    · rw [if_pos hseed, if_pos hseed]
    · rw [if_neg hseed, if_neg hseed,
        outer_get v x y k hk hx hy v.width _ hx (Nat.le_refl _)
          (by rw [List.length_replicate])]

/-- C9 witness: the exported buffer of an initialized 1-by-1 engine has
exactly 4 bytes. -/
theorem c9_export_witness :
    (vInit 1 1 1 (fun _ => 0)).ToPixels.length = 1 * 1 * 4 :=
  (c9_export (vInit 1 1 1 (fun _ => 0))
    (initSeedsL_inCanvas (fun _ => 0) 1 1 1 (by decide) (by decide))).1

/-! ## The coverage invariant -/

theorem placeSeeds_isSome_mono : ∀ (ss : List VPoint) (d : VGrid) (x y : Int),
    (d x y).isSome → (placeSeeds d ss x y).isSome := by
  intro ss
  induction ss with
  | nil => intro d x y hd; exact hd
  | cons s rest ih =>
    intro d x y hd
    refine ih _ x y ?_
    show (updateGrid d s.x s.y (some s) x y).isSome
    by_cases hxy : x = s.x ∧ y = s.y
    · rw [hxy.1, hxy.2, updateGrid_same]; rfl
    · rw [updateGrid_ne _ _ _ _ _ _ hxy]; exact hd

theorem placeSeeds_mem_isSome : ∀ (ss : List VPoint) (d : VGrid),
    ∀ s ∈ ss, (placeSeeds d ss s.x s.y).isSome := by
  intro ss
  induction ss with
  | nil => intro d s hs; simp at hs
  | cons s0 rest ih =>
    intro d s hs
    rcases List.mem_cons.mp hs with rfl | hs'
    · refine placeSeeds_isSome_mono rest _ s.x s.y ?_
      show (updateGrid d s.x s.y (some s) s.x s.y).isSome
      rw [updateGrid_same]; rfl
    · exact ih _ s hs'

theorem placeSeeds_inv : ∀ (ss : List VPoint) (d : VGrid) (x y : Int),
    (placeSeeds d ss x y).isSome →
    (d x y).isSome ∨ ∃ s ∈ ss, s.x = x ∧ s.y = y := by
  intro ss
  induction ss with
  | nil => intro d x y hd; exact Or.inl hd
  | cons s0 rest ih =>
    intro d x y hd
    rcases ih _ x y hd with hd' | ⟨s, hs, hp⟩
    · by_cases hxy : x = s0.x ∧ y = s0.y
      · exact Or.inr ⟨s0, List.mem_cons_self _ _, hxy.1.symm, hxy.2.symm⟩
      · left
        have : updateGrid d s0.x s0.y (some s0) x y = d x y :=
          updateGrid_ne _ _ _ _ _ _ hxy
        rw [show (fun d s => updateGrid d s.x s.y (some s)) d s0 =
          updateGrid d s0.x s0.y (some s0) from rfl, this] at hd'
        exact hd'
    · exact Or.inr ⟨s, List.mem_cons_of_mem _ hs, hp⟩

/-- The inductive invariant that yields full coverage at completion:
the diagram stores points at their own coordinates; every seed lies in
the canvas and its own cell is assigned; the active seeds are among the
seeds; every canvas cell within L1 distance radius of an active seed is
assigned; and every assigned canvas cell either is at L1 distance exactly
radius from some active seed (it may have been claimed this ring) or has
all its canvas neighbors assigned. -/
def InvC1 (v : Voronoi) : Prop :=
  WellPlaced v.diagram
  ∧ (∀ s ∈ v.seeds, inCanvas v.width v.height s.x s.y ∧
      (v.diagram s.x s.y).isSome)
  ∧ v.activeSeeds.Sublist v.seeds
  ∧ (∀ u ∈ v.activeSeeds, ∀ x y : Int, inCanvas v.width v.height x y →
      l1 u.x u.y x y ≤ v.radius → (v.diagram x y).isSome)
  ∧ (∀ x y : Int, inCanvas v.width v.height x y → (v.diagram x y).isSome →
      (∃ u ∈ v.activeSeeds, l1 u.x u.y x y = v.radius)
      ∨ (∀ x' y' : Int, inCanvas v.width v.height x' y' →
          l1 x y x' y' = 1 → (v.diagram x' y').isSome))

theorem invC1_init (w h n : Nat) (g : Nat → Nat) (hw : 0 < w) (hh : 0 < h) :
    InvC1 (vInit w h n g) := by
  refine ⟨vInit_wellPlaced w h n g, ?_, List.Sublist.refl _, ?_, ?_⟩
  · intro s hs
    exact ⟨initSeedsL_inCanvas g w h n hw hh s hs,
      placeSeeds_mem_isSome _ emptyDiagram s hs⟩
  · intro u hu x y hin hl1
    have hrad : (vInit w h n g).radius = 0 := rfl
    rw [hrad] at hl1
    have hx : x = u.x ∧ y = u.y := by
      unfold l1 at hl1
      constructor <;> omega
    rw [hx.1, hx.2]
    exact placeSeeds_mem_isSome _ emptyDiagram u hu
  · intro x y hin hsome
    rcases placeSeeds_inv _ emptyDiagram x y hsome with habs | ⟨s, hs, hp⟩
    · simp [emptyDiagram] at habs
    · left
      refine ⟨s, hs, ?_⟩
      show l1 s.x s.y x y = 0
      unfold l1
      rw [hp.1, hp.2]
      simp

theorem invC1_step (v v' : Voronoi) (hstep : tessellateStep v = some v')
    (hinv : InvC1 v) : InvC1 v' := by
  obtain ⟨hwp, hseeds, hsub, hinv2, hinv3⟩ := hinv
  obtain ⟨d', act, hsp, rfl⟩ := tessellateStep_elim v v' hstep
  have hwp' : WellPlaced d' := sp_wellPlaced _ _ _ _ _ _ _ _ hwp hsp
  have hmono : DistMono v.diagram d' := sp_distMono _ _ _ _ _ _ _ _ hwp hsp
  have hpersist : ∀ x y : Int, (v.diagram x y).isSome → (d' x y).isSome :=
    fun x y => DistMono.isSome hmono x y
  have hactsub : act.Sublist v.activeSeeds := sp_sublist _ _ _ _ _ _ _ _ hsp
  have hensure : ∀ u ∈ v.activeSeeds, ∀ x y : Int,
      inCanvas v.width v.height x y → l1 u.x u.y x y = v.radius + 1 →
      (d' x y).isSome := by
    intro u hu x y hin hl1
    obtain ⟨pt, hpt, hoff⟩ := mem_reflList_getRing (v.radius + 1)
      (x - u.x, y - u.y) (by unfold l1 at hl1; exact hl1)
    have hx : u.x + (x - u.x) = x := by ring
    have hy : u.y + (y - u.y) = y := by ring
    have h2 := sp_ensures v.width v.height v.distances (getRing (v.radius + 1))
      v.activeSeeds v.diagram d' act hwp hsp u hu pt hpt (x - u.x, y - u.y) hoff
    dsimp only at h2
    rw [hx, hy] at h2
    exact h2 hin
  refine ⟨hwp', ?_, hactsub.trans hsub, ?_, ?_⟩
  · intro s hs
    exact ⟨(hseeds s hs).1, hpersist _ _ (hseeds s hs).2⟩
  · intro u hu x y hin hl1
    have hu' : u ∈ v.activeSeeds := hactsub.subset hu
    have hl1' : l1 u.x u.y x y ≤ v.radius + 1 := hl1
    rcases Nat.lt_or_ge (l1 u.x u.y x y) (v.radius + 1) with hlt | hge
    · exact hpersist x y (hinv2 u hu' x y hin (by omega))
    · exact hensure u hu' x y hin (by omega)
  · intro x y hin hsome
    by_cases hold : (v.diagram x y).isSome
    · rcases hinv3 x y hin hold with ⟨u, hu, hl1⟩ | hclosed
      · right
        intro x' y' hin' hadj
        have htri : l1 u.x u.y x' y' ≤ v.radius + 1 := by
          unfold l1 at hl1 hadj ⊢
          omega
        rcases Nat.lt_or_ge (l1 u.x u.y x' y') (v.radius + 1) with hlt | hge
        · exact hpersist x' y' (hinv2 u hu x' y' hin' (by omega))
        · exact hensure u hu x' y' hin' (by omega)
      · right
        intro x' y' hin' hadj
        exact hpersist x' y' (hclosed x' y' hin' hadj)
    · rcases sp_unchanged_or _ _ _ _ _ _ _ _ hwp hsp x y with
        hsame | ⟨s, hs, pt, hpt, off, hoff, hx, hy⟩
      · dsimp only at hsome
        rw [hsame] at hsome
        exact absurd hsome hold
      · left
        refine ⟨s, hs, ?_⟩
        show l1 s.x s.y x y = v.radius + 1
        have habs := reflList_natAbs pt.1 pt.2 off hoff
        have hsum := (getRing_sum _ pt hpt).1
        unfold l1
        rw [hx, hy]
        have e1 : s.x + off.1 - s.x = off.1 := by ring
        have e2 : s.y + off.2 - s.y = off.2 := by ring
        rw [e1, e2]
        omega

theorem invC1_loop (n : Nat) : ∀ v v' : Voronoi, InvC1 v →
    tessellateLoop n v = some v' → InvC1 v' := by
  induction n with
  | zero =>
    intro v v' hinv hrun
    obtain rfl := Option.some.inj hrun
    exact hinv
  | succ k ih =>
    intro v v' hinv hrun
    rw [tessellateLoop_succ] at hrun
    by_cases hact : v.activeSeeds = []
    · rw [if_pos hact] at hrun
      obtain rfl := Option.some.inj hrun
      exact hinv
    · rw [if_neg hact] at hrun
      cases hstep : tessellateStep v with
      | none => rw [hstep, Option.none_bind] at hrun; cases hrun
      | some v1 =>
        rw [hstep, Option.some_bind] at hrun
        exact ih v1 v' (invC1_step v v1 hstep hinv) hrun

theorem loop_fields (n : Nat) : ∀ v v' : Voronoi,
    tessellateLoop n v = some v' →
    v'.width = v.width ∧ v'.height = v.height ∧ v'.seeds = v.seeds := by
  induction n with
  | zero =>
    intro v v' hrun
    obtain rfl := Option.some.inj hrun
    exact ⟨rfl, rfl, rfl⟩
  | succ k ih =>
    intro v v' hrun
    rw [tessellateLoop_succ] at hrun
    by_cases hact : v.activeSeeds = []
    · rw [if_pos hact] at hrun
      obtain rfl := Option.some.inj hrun
      exact ⟨rfl, rfl, rfl⟩
    · rw [if_neg hact] at hrun
      cases hstep : tessellateStep v with
      | none => rw [hstep, Option.none_bind] at hrun; cases hrun
      | some v1 =>
        rw [hstep, Option.some_bind] at hrun
        obtain ⟨hW, hH, hS, -, -, -⟩ := tessellateStep_fields v v1 hstep
        obtain ⟨hW', hH', hS'⟩ := ih v1 v' hrun
        exact ⟨hW'.trans hW, hH'.trans hH, hS'.trans hS⟩

theorem covered_of_done (v : Voronoi) (hinv : InvC1 v)
    (hdone : v.activeSeeds = []) (u0 : VPoint) (hu0 : u0 ∈ v.seeds) :
    ∀ x y : Int, inCanvas v.width v.height x y → (v.diagram x y).isSome := by
  obtain ⟨hwp, hseeds, hsub, hinv2, hinv3⟩ := hinv
  have hclosed : ∀ x y : Int, inCanvas v.width v.height x y →
      (v.diagram x y).isSome → ∀ x' y' : Int,
      inCanvas v.width v.height x' y' → l1 x y x' y' = 1 →
      (v.diagram x' y').isSome := by
    intro x y hin hsome
    rcases hinv3 x y hin hsome with ⟨u, hu, -⟩ | hcl
    · rw [hdone] at hu
      simp at hu
    · exact hcl
  have hu0in := (hseeds u0 hu0).1
  have hu0some := (hseeds u0 hu0).2
  suffices h : ∀ n : Nat, ∀ x y : Int, inCanvas v.width v.height x y →
      l1 u0.x u0.y x y = n → (v.diagram x y).isSome by
    intro x y hin
    exact h (l1 u0.x u0.y x y) x y hin rfl
  intro n
  induction n with
  | zero =>
    intro x y hin hl1
    have hx : x = u0.x ∧ y = u0.y := by
      unfold l1 at hl1
      constructor <;> omega
    rw [hx.1, hx.2]
    exact hu0some
  | succ m ih =>
    intro x y hin hl1
    obtain ⟨hx0, hx1, hy0, hy1⟩ := hin
    obtain ⟨hu0x0, hu0x1, hu0y0, hu0y1⟩ := hu0in
    rcases lt_trichotomy x u0.x with hlt | heq | hgt
    · have hin' : inCanvas v.width v.height (x+1) y := ⟨by omega, by omega, hy0, hy1⟩
      have hl1' : l1 u0.x u0.y (x+1) y = m := by
        unfold l1 at hl1 ⊢
        omega
      exact hclosed (x+1) y hin' (ih (x+1) y hin' hl1') x y ⟨hx0, hx1, hy0, hy1⟩
        (by unfold l1; omega)
    · rcases lt_trichotomy y u0.y with hylt | hyeq | hygt
      · have hin' : inCanvas v.width v.height x (y+1) := ⟨hx0, hx1, by omega, by omega⟩
        have hl1' : l1 u0.x u0.y x (y+1) = m := by
          unfold l1 at hl1 ⊢
          omega
        exact hclosed x (y+1) hin' (ih x (y+1) hin' hl1') x y ⟨hx0, hx1, hy0, hy1⟩
          (by unfold l1; omega)
      · exfalso
        unfold l1 at hl1
        rw [heq, hyeq] at hl1
        simp at hl1
      · have hin' : inCanvas v.width v.height x (y-1) := ⟨hx0, hx1, by omega, by omega⟩
        have hl1' : l1 u0.x u0.y x (y-1) = m := by
          unfold l1 at hl1 ⊢
          omega
        exact hclosed x (y-1) hin' (ih x (y-1) hin' hl1') x y ⟨hx0, hx1, hy0, hy1⟩
          (by unfold l1; omega)
    · have hin' : inCanvas v.width v.height (x-1) y := ⟨by omega, by omega, hy0, hy1⟩
      have hl1' : l1 u0.x u0.y (x-1) y = m := by
        unfold l1 at hl1 ⊢
        omega
      exact hclosed (x-1) y hin' (ih (x-1) y hin' hl1') x y ⟨hx0, hx1, hy0, hy1⟩
        (by unfold l1; omega)

/-- C1: for every valid initial state and every random seed placement,
whenever the Tessellate loop runs to completion (the active seed set is
empty), every canvas cell is assigned, provided there is at least one
seed; and with zero seeds the loop changes nothing and every cell stays
unassigned after any number of steps. -/
theorem c1_coverage (w h n : Nat) (g : Nat → Nat) (hw : 0 < w) (hh : 0 < h)
    (hn : n ≤ w * h) (m : Nat) (v' : Voronoi)
    (hrun : tessellateLoop m (vInit w h n g) = some v')
    (hdone : v'.activeSeeds = []) :
    (0 < n → ∀ x y : Int, inCanvas w h x y → (v'.diagram x y).isSome = true)
    ∧ (n = 0 → ∀ x y : Int, v'.diagram x y = none) := by
  constructor
  · intro hpos x y hin
    have hinv := invC1_loop m _ v' (invC1_init w h n g hw hh) hrun
    obtain ⟨hW, hH, hS⟩ := loop_fields m _ v' hrun
    have hne : (vInit w h n g).seeds ≠ [] := by
      show initSeedsL g w h n ≠ []
      unfold initSeedsL
      simp only [ne_eq, List.map_eq_nil_iff, List.range_eq_nil]
      omega
    obtain ⟨u0, hu0⟩ := List.exists_mem_of_ne_nil _ hne
    refine covered_of_done v' hinv hdone u0 ?_ x y ?_
    · rw [hS]
      exact hu0
    · rw [hW, hH]
      exact hin
  · intro h0
    subst h0
    have hempty : (vInit w h 0 g).activeSeeds = [] := rfl
    rw [loop_empty m _ hempty] at hrun
    obtain rfl := Option.some.inj hrun
    intro x y
    rfl

/-- C1 witness: the completed 2-by-2 single-seed run assigns cell (1,1). -/
theorem c1_coverage_witness :
    ((((tessellateLoop 4 (vInit 2 2 1 (fun _ => 0))).get
      (by decide)).diagram 1 1)).isSome = true :=
  (c1_coverage 2 2 1 (fun _ => 0) (by decide) (by decide) (by decide) 4
    ((tessellateLoop 4 (vInit 2 2 1 (fun _ => 0))).get (by decide))
    (Option.some_get _).symm (by decide)).1 (by decide) 1 1 (by decide)
